import Mathlib

/-!
Shallow embedding of src/npoint_automator.py (function run), together with a
model of the fragment of the Python json module the script uses
(json.load / json.dumps(..., indent=2) / requests .json()), restricted to
JSON values whose numbers are integers.  Floating point numbers are outside
the embedded domain.
-/

set_option maxHeartbeats 1000000

namespace NPoint

/-- JSON values as produced by Python json.load, with numbers restricted to
integers (the script never manipulates numbers; floats are outside the
embedded domain).  Objects are ordered key/value sequences, as Python dicts
are insertion ordered. -/
inductive JValue where
  | null : JValue
  | bool : Bool → JValue
  | int : Int → JValue
  | str : String → JValue
  | arr : List JValue → JValue
  | obj : List (String × JValue) → JValue

/-- First-match association lookup, modelling Python dict access on dicts
coming from json.load (whose keys are unique). -/
def jfind (k : String) : List (String × JValue) → Option JValue
  | [] => none
  | (k', v) :: rest => if k' = k then some v else jfind k rest

mutual
/-- Structural size of a JSON value, used as parser fuel bound. -/
def jsize : JValue → Nat
  | .null => 1
  | .bool _ => 1
  | .int _ => 1
  | .str _ => 1
  | .arr xs => 1 + jsizeList xs
  | .obj xs => 1 + jsizePairs xs

/-- Size of the element list of an array (one unit per element plus one). -/
def jsizeList : List JValue → Nat
  | [] => 1
  | x :: t => 1 + jsize x + jsizeList t

/-- Size of the member list of an object (one unit per member plus one). -/
def jsizePairs : List (String × JValue) → Nat
  | [] => 1
  | (_, v) :: t => 1 + jsize v + jsizePairs t
end

mutual
/-- Structural boolean equality on JSON values. -/
def beqJ : JValue → JValue → Bool
  | .null, .null => true
  | .bool a, .bool b => a = b
  | .int a, .int b => a = b
  | .str a, .str b => a = b
  | .arr a, .arr b => beqL a b
  | .obj a, .obj b => beqP a b
  | _, _ => false

/-- Structural boolean equality on JSON arrays. -/
def beqL : List JValue → List JValue → Bool
  | [], [] => true
  | a :: as, b :: bs => beqJ a b && beqL as bs
  | _, _ => false

/-- Structural boolean equality on JSON object members. -/
def beqP : List (String × JValue) → List (String × JValue) → Bool
  | [], [] => true
  | (k, a) :: as, (k', b) :: bs => k = k' && (beqJ a b && beqP as bs)
  | _, _ => false
end

theorem jsize_pos : ∀ v, 0 < jsize v := by
  intro v; cases v <;> simp [jsize]

theorem jsizeList_pos : ∀ xs, 0 < jsizeList xs := by
  intro xs; cases xs <;> simp [jsizeList]

theorem jsizePairs_pos : ∀ ps, 0 < jsizePairs ps := by
  intro ps
  cases ps with
  | nil => simp [jsizePairs]
  | cons p t => obtain ⟨k, v⟩ := p; simp [jsizePairs]

theorem beq_spec : ∀ n : Nat,
    (∀ a, jsize a ≤ n → ∀ b, (beqJ a b = true ↔ a = b)) ∧
    (∀ xs, jsizeList xs ≤ n → ∀ ys, (beqL xs ys = true ↔ xs = ys)) ∧
    (∀ ps, jsizePairs ps ≤ n → ∀ qs, (beqP ps qs = true ↔ ps = qs)) := by
  intro n
  induction n using Nat.strong_induction_on with
  | _ n ih =>
  refine ⟨?_, ?_, ?_⟩
  · intro a ha b
    match a, b with
    | .null, .null => simp [beqJ]
    | .bool x, .bool y => simp [beqJ]
    | .int x, .int y => simp [beqJ]
    | .str x, .str y => simp [beqJ]
    | .arr xs, .arr ys =>
        have hs : jsizeList xs ≤ n - 1 := by
          simp [jsize] at ha; omega
        have hn : 0 < n := by
          have := ha; simp [jsize] at this; omega
        have := ((ih (n - 1) (by omega)).2.1) xs hs ys
        simp [beqJ, this]
    | .obj xs, .obj ys =>
        have hs : jsizePairs xs ≤ n - 1 := by
          simp [jsize] at ha; omega
        have hn : 0 < n := by
          have := ha; simp [jsize] at this; omega
        have := ((ih (n - 1) (by omega)).2.2) xs hs ys
        simp [beqJ, this]
    | .null, .bool y => simp [beqJ]
    | .null, .int y => simp [beqJ]
    | .null, .str y => simp [beqJ]
    | .null, .arr y => simp [beqJ]
    | .null, .obj y => simp [beqJ]
    | .bool x, .null => simp [beqJ]
    | .bool x, .int y => simp [beqJ]
    | .bool x, .str y => simp [beqJ]
    | .bool x, .arr y => simp [beqJ]
    | .bool x, .obj y => simp [beqJ]
    | .int x, .null => simp [beqJ]
    | .int x, .bool y => simp [beqJ]
    | .int x, .str y => simp [beqJ]
    | .int x, .arr y => simp [beqJ]
    | .int x, .obj y => simp [beqJ]
    | .str x, .null => simp [beqJ]
    | .str x, .bool y => simp [beqJ]
    | .str x, .int y => simp [beqJ]
    | .str x, .arr y => simp [beqJ]
    | .str x, .obj y => simp [beqJ]
    | .arr x, .null => simp [beqJ]
    | .arr x, .bool y => simp [beqJ]
    | .arr x, .int y => simp [beqJ]
    | .arr x, .str y => simp [beqJ]
    | .arr x, .obj y => simp [beqJ]
    | .obj x, .null => simp [beqJ]
    | .obj x, .bool y => simp [beqJ]
    | .obj x, .int y => simp [beqJ]
    | .obj x, .str y => simp [beqJ]
    | .obj x, .arr y => simp [beqJ]
  · intro xs hxs ys
    match xs, ys with
    | [], [] => simp [beqL]
    | [], y :: ys => simp [beqL]
    | x :: xs, [] => simp [beqL]
    | x :: xs, y :: ys =>
        have h1 : jsize x ≤ n - 1 := by
          simp [jsizeList] at hxs; omega
        have h2 : jsizeList xs ≤ n - 1 := by
          simp [jsizeList] at hxs; omega
        have hn : 0 < n := by
          have := hxs; simp [jsizeList] at this
          have := jsize_pos x; omega
        have e1 := ((ih (n - 1) (by omega)).1) x h1 y
        have e2 := ((ih (n - 1) (by omega)).2.1) xs h2 ys
        simp [beqL, e1, e2]
  · intro ps hps qs
    match ps, qs with
    | [], [] => simp [beqP]
    | [], q :: qs => simp [beqP]
    | p :: ps, [] => simp [beqP]
    | (k, a) :: ps, (k', b) :: qs =>
        have h1 : jsize a ≤ n - 1 := by
          simp [jsizePairs] at hps; omega
        have h2 : jsizePairs ps ≤ n - 1 := by
          simp [jsizePairs] at hps; omega
        have hn : 0 < n := by
          have := hps; simp [jsizePairs] at this
          have := jsize_pos a; omega
        have e1 := ((ih (n - 1) (by omega)).1) a h1 b
        have e2 := ((ih (n - 1) (by omega)).2.2) ps h2 qs
        simp [beqP, e1, e2, and_assoc]

theorem beqJ_iff (a b : JValue) : beqJ a b = true ↔ a = b :=
  ((beq_spec (jsize a)).1) a (le_refl _) b

instance : DecidableEq JValue := fun a b =>
  decidable_of_iff (beqJ a b = true) (beqJ_iff a b)

/-- No string occurs twice in the list. -/
def nodupKeys : List String → Bool
  | [] => true
  | k :: t => !t.contains k && nodupKeys t

mutual
/-- A JSON value in the image of json.load: every object has pairwise
distinct keys, recursively. -/
def wfJ : JValue → Bool
  | .null => true
  | .bool _ => true
  | .int _ => true
  | .str _ => true
  | .arr xs => wfL xs
  | .obj ps => nodupKeys (ps.map Prod.fst) && wfP ps

/-- Well-formedness of the elements of an array. -/
def wfL : List JValue → Bool
  | [] => true
  | x :: t => wfJ x && wfL t

/-- Well-formedness of the values of an object. -/
def wfP : List (String × JValue) → Bool
  | [] => true
  | (_, v) :: t => wfJ v && wfP t
end

theorem nodupKeys_nodup : ∀ l : List String, nodupKeys l = true → l.Nodup := by
  intro l
  induction l with
  | nil => intro _; exact List.nodup_nil
  | cons k t ih =>
      intro h
      rw [nodupKeys, Bool.and_eq_true] at h
      refine List.nodup_cons.mpr ⟨?_, ih h.2⟩
      intro hmem
      have hc : t.contains k = true := List.elem_eq_true_of_mem hmem
      rw [hc] at h
      simp at h

/-! ### Python equality on JSON values

The membership test of line 193 uses the Python operator ==, which is
coarser than structural equality: a boolean equals the integer it stands
for (True == 1, False == 0), lists compare elementwise, and dicts compare
as unordered key/value maps.  Floats are outside the embedded domain.  The
fuel argument only makes the recursion structural (dict comparison walks
through a lookup, not a subterm); any fuel at or above the structural size
of the left value is enough. -/

/-- The integer a Python bool equals. -/
def boolInt (b : Bool) : Int := if b then 1 else 0

mutual
/-- Python == on the embedded values, with fuel. -/
def pyEqF : Nat → JValue → JValue → Bool
  | 0, _, _ => false
  | f + 1, a, b =>
    match a, b with
    | .null, .null => true
    | .bool x, .bool y => x = y
    | .bool x, .int m => boolInt x = m
    | .int n, .bool y => n = boolInt y
    | .int n, .int m => n = m
    | .str s, .str t => s = t
    | .arr xs, .arr ys => pyEqLF f xs ys
    | .obj ps, .obj qs =>
        ps.length = qs.length &&
        ps.all (fun p =>
          match jfind p.1 qs with
          | some w => pyEqF f p.2 w
          | none => false)
    | _, _ => false

/-- Python == on lists: equal lengths, elementwise equal. -/
def pyEqLF : Nat → List JValue → List JValue → Bool
  | _, [], [] => true
  | f + 1, x :: xs, y :: ys => pyEqF f x y && pyEqLF f xs ys
  | _, _, _ => false
end

/-- Python == with its fuel supplied: the structural size of the left value
bounds the recursion depth. -/
def pyEq (a b : JValue) : Bool := pyEqF (jsize a) a b

/-- Python membership x in s for a list s, as the filter of line 193 uses
it: some element of s equals x under Python ==. -/
def idMem (idv : JValue) (ids : List JValue) : Bool :=
  ids.any (fun nid => pyEq idv nid)

theorem jsize_le_jsizePairs : ∀ (ps : List (String × JValue))
    (p : String × JValue), p ∈ ps → jsize p.2 ≤ jsizePairs ps := by
  intro ps
  induction ps with
  | nil => intro p hp; cases hp
  | cons q t ih =>
      intro p hp
      obtain ⟨k, v⟩ := q
      rcases List.mem_cons.mp hp with hp | hp
      · subst hp
        show jsize v ≤ jsizePairs ((k, v) :: t)
        simp [jsizePairs]
        omega
      · have h1 := ih p hp
        show jsize p.2 ≤ jsizePairs ((k, v) :: t)
        simp [jsizePairs]
        omega

theorem wfP_mem : ∀ ps : List (String × JValue), wfP ps = true →
    ∀ p ∈ ps, wfJ p.2 = true := by
  intro ps
  induction ps with
  | nil => intro _ p hp; cases hp
  | cons q t ih =>
      intro h p hp
      obtain ⟨k, v⟩ := q
      rw [wfP, Bool.and_eq_true] at h
      rcases List.mem_cons.mp hp with hp | hp
      · subst hp; exact h.1
      · exact ih h.2 p hp

/-- On a member list with pairwise distinct keys, looking a member's own key
up finds that member's value. -/
theorem jfind_self : ∀ ps : List (String × JValue),
    (ps.map Prod.fst).Nodup → ∀ p ∈ ps, jfind p.1 ps = some p.2 := by
  intro ps
  induction ps with
  | nil => intro _ p hp; cases hp
  | cons q t ih =>
      intro hnd p hp
      obtain ⟨k, v⟩ := q
      simp only [List.map_cons, List.nodup_cons] at hnd
      rcases List.mem_cons.mp hp with hp | hp
      · subst hp
        show jfind k ((k, v) :: t) = some v
        rw [jfind, if_pos rfl]
      · have hne : ¬ k = p.1 := by
          intro hc
          exact hnd.1 (hc ▸ List.mem_map_of_mem Prod.fst hp)
        show jfind p.1 ((k, v) :: t) = some p.2
        rw [jfind, if_neg hne]
        exact ih hnd.2 p hp

/-- Python == is reflexive on values in the image of json.load, at any fuel
at or above the structural size. -/
theorem pyEqF_refl : ∀ n : Nat,
    (∀ v, jsize v ≤ n → wfJ v = true → ∀ f, jsize v ≤ f →
      pyEqF f v v = true) ∧
    (∀ xs, jsizeList xs ≤ n → wfL xs = true → ∀ f, jsizeList xs ≤ f →
      pyEqLF f xs xs = true) := by
  intro n
  induction n using Nat.strong_induction_on with
  | _ n ih =>
  constructor
  · intro v hv hwf f hf
    have hpos := jsize_pos v
    cases f with
    | zero => omega
    | succ f =>
      match v, hv, hwf, hf with
      | .null, _, _, _ => rfl
      | .bool b, _, _, _ => simp [pyEqF]
      | .int m, _, _, _ => simp [pyEqF]
      | .str s, _, _, _ => simp [pyEqF]
      | .arr xs, hv, hwf, hf =>
          have hv' : 1 + jsizeList xs ≤ n := by simpa [jsize] using hv
          have hf' : 1 + jsizeList xs ≤ f + 1 := by simpa [jsize] using hf
          have hwf' : wfL xs = true := by simpa [wfJ] using hwf
          show pyEqLF f xs xs = true
          exact (ih (n - 1) (by omega)).2 xs (by omega) hwf' f (by omega)
      | .obj ps, hv, hwf, hf =>
          have hv' : 1 + jsizePairs ps ≤ n := by simpa [jsize] using hv
          have hf' : 1 + jsizePairs ps ≤ f + 1 := by simpa [jsize] using hf
          rw [wfJ, Bool.and_eq_true] at hwf
          show (decide (ps.length = ps.length) &&
            ps.all (fun p =>
              match jfind p.1 ps with
              | some w => pyEqF f p.2 w
              | none => false)) = true
          rw [Bool.and_eq_true]
          refine ⟨by simp, ?_⟩
          rw [List.all_eq_true]
          intro p hp
          show (match jfind p.1 ps with
            | some w => pyEqF f p.2 w
            | none => false) = true
          rw [jfind_self ps (nodupKeys_nodup _ hwf.1) p hp]
          have hple := jsize_le_jsizePairs ps p hp
          exact (ih (n - 1) (by omega)).1 p.2 (by omega)
            (wfP_mem ps hwf.2 p hp) f (by omega)
  · intro xs hxs hwf f hf
    cases xs with
    | nil =>
        cases f with
        | zero => rfl
        | succ f => rfl
    | cons x t =>
        have hx := jsize_pos x
        have ht := jsizeList_pos t
        have hxs' : 1 + jsize x + jsizeList t ≤ n := by
          simpa [jsizeList] using hxs
        have hf' : 1 + jsize x + jsizeList t ≤ f := by
          simpa [jsizeList] using hf
        rw [wfL, Bool.and_eq_true] at hwf
        cases f with
        | zero => omega
        | succ f =>
            show (pyEqF f x x && pyEqLF f t t) = true
            rw [Bool.and_eq_true]
            exact ⟨(ih (n - 1) (by omega)).1 x (by omega) hwf.1 f (by omega),
                   (ih (n - 1) (by omega)).2 t (by omega) hwf.2 f (by omega)⟩

/-- Python == is reflexive on values in the image of json.load. -/
theorem pyEq_refl (v : JValue) (h : wfJ v = true) : pyEq v v = true :=
  (pyEqF_refl (jsize v)).1 v le_rfl h (jsize v) le_rfl

/-- Python None equals no embedded value but None itself. -/
theorem pyEq_null_not_null (v : JValue) (h : ¬ v = JValue.null) :
    pyEq JValue.null v = false := by
  cases v with
  | null => exact absurd rfl h
  | bool b => rfl
  | int m => rfl
  | str s => rfl
  | arr xs => rfl
  | obj ps => rfl

/-- Decimal digit character for a digit value below ten. -/
def digitChar (n : Nat) : Char := Char.ofNat (48 + n)

/-- Decimal digits with explicit fuel (any fuel above the value works; the
fuel only makes the recursion structural). -/
def natCharsAux : Nat → Nat → List Char
  | 0, _ => []
  | f + 1, n =>
      if n < 10 then [digitChar n]
      else natCharsAux f (n / 10) ++ [digitChar (n % 10)]

/-- Decimal digits of a natural number, most significant first, as emitted by
Python repr of a nonnegative int. -/
def natChars (n : Nat) : List Char := natCharsAux (n + 1) n

theorem natCharsAux_fuel : ∀ f f' n, n < f → n < f' →
    natCharsAux f n = natCharsAux f' n := by
  intro f
  induction f with
  | zero => intro f' n h; omega
  | succ f ih =>
      intro f' n h h'
      match f', h' with
      | f' + 1, h' =>
        show (if n < 10 then _ else _) = (if n < 10 then _ else _)
        by_cases hn : n < 10
        · simp [hn]
        · have hd : n / 10 < n := Nat.div_lt_self (by omega) (by omega)
          simp only [if_neg hn]
          rw [ih f' (n / 10) (by omega) (by omega)]

/-- The defining recurrence of natChars. -/
theorem natChars_eq (n : Nat) : natChars n =
    if n < 10 then [digitChar n]
    else natChars (n / 10) ++ [digitChar (n % 10)] := by
  show natCharsAux (n + 1) n = _
  by_cases hn : n < 10
  · simp [natCharsAux, hn]
  · have hd : n / 10 < n := Nat.div_lt_self (by omega) (by omega)
    show (if n < 10 then _ else natCharsAux n (n / 10) ++ _) = _
    simp only [if_neg hn]
    rw [natCharsAux_fuel n (n / 10 + 1) (n / 10) (by omega) (by omega)]
    rfl

/-- Characters of a Python int literal, as json.dumps emits integers. -/
def intChars (n : Int) : List Char :=
  if n < 0 then '-' :: natChars n.natAbs else natChars n.toNat

/-- Lowercase hexadecimal digit character, as Python \uXXXX escapes use. -/
def hexDigit (n : Nat) : Char :=
  if n < 10 then Char.ofNat (48 + n) else Char.ofNat (87 + n)

/-- Four-digit lowercase hex rendering of a code unit below 0x10000. -/
def hex4 (n : Nat) : List Char :=
  [hexDigit (n / 4096 % 16), hexDigit (n / 256 % 16),
   hexDigit (n / 16 % 16), hexDigit (n % 16)]

/-- Escape one character the way json.dumps with ensure_ascii (the default)
does: backslash and quote get two-character escapes, the common control
characters get short escapes, every other character outside 0x20..0x7E is
\uXXXX-escaped (with a surrogate pair above 0xFFFF), the rest is literal. -/
def escChar (c : Char) : List Char :=
  if c.toNat = 34 then ['\\', '"']
  else if c.toNat = 92 then ['\\', '\\']
  else if c.toNat = 10 then ['\\', 'n']
  else if c.toNat = 9 then ['\\', 't']
  else if c.toNat = 13 then ['\\', 'r']
  else if c.toNat = 8 then ['\\', 'b']
  else if c.toNat = 12 then ['\\', 'f']
  else if c.toNat < 32 ∨ 126 < c.toNat then
    if c.toNat < 65536 then '\\' :: 'u' :: hex4 c.toNat
    else
      ('\\' :: 'u' :: hex4 (55296 + (c.toNat - 65536) / 1024)) ++
      ('\\' :: 'u' :: hex4 (56320 + (c.toNat - 65536) % 1024))
  else [c]

/-- Escape a whole string body (without the surrounding quotes). -/
def escapeChars : List Char → List Char
  | [] => []
  | c :: cs => escChar c ++ escapeChars cs

/-- A run of space characters, used for indentation. -/
def spaces : Nat → List Char
  | 0 => []
  | n + 1 => ' ' :: spaces n

mutual
/-- Characters of json.dumps(v, indent=2) at the given current indent depth.
With an indent, Python separates items with a comma followed by a newline and
the inner indentation, and keys from values with a colon and a space. -/
def emit (d : Nat) : JValue → List Char
  | .int n => intChars n
  | .null => ['n', 'u', 'l', 'l']
  | .bool true => ['t', 'r', 'u', 'e']
  | .bool false => 'f' :: ['a', 'l', 's', 'e']
  | .str s => '"' :: (escapeChars s.data ++ ['"'])
  | .arr [] => ['[', ']']
  | .arr (x :: t) =>
      '[' :: '\n' :: (spaces (d + 2) ++ emit (d + 2) x ++ emitItems (d + 2) t ++
        ('\n' :: (spaces d ++ [']'])))
  | .obj [] => ['{', '}']
  | .obj ((k, v) :: t) =>
      '{' :: '\n' :: (spaces (d + 2) ++
        ('"' :: (escapeChars k.data ++ ('"' :: ':' :: ' ' :: emit (d + 2) v))) ++
        emitPairs (d + 2) t ++ ('\n' :: (spaces d ++ ['}'])))

/-- Remaining array items, each preceded by a comma, newline and indent. -/
def emitItems (d : Nat) : List JValue → List Char
  | [] => []
  | x :: t => ',' :: '\n' :: (spaces d ++ emit d x ++ emitItems d t)

/-- Remaining object members, each preceded by a comma, newline and indent. -/
def emitPairs (d : Nat) : List (String × JValue) → List Char
  | [] => []
  | (k, v) :: t =>
      ',' :: '\n' :: (spaces d ++
        ('"' :: (escapeChars k.data ++ ('"' :: ':' :: ' ' :: emit d v))) ++
        emitPairs d t)
end

/-- json.dumps(v, indent=2), as used at lines 113 and 201 of the script. -/
def dumps (v : JValue) : String := String.mk (emit 0 v)

/-! ### A model of json.loads restricted to the embedded value domain

The parser below models the CPython json scanner on documents whose numbers
are integers: whitespace is the four characters the module skips, strings are
strict (unescaped control characters are rejected), \uXXXX escapes accept
both hex cases and combine surrogate pairs (lone surrogates, which a Lean
Char cannot represent, are rejected), numbers follow the integer part of the
module's number regex (so a leading zero ends the digit run), objects are
built with dict semantics (first occurrence position, last value wins), and
trailing commas are rejected. -/

/-- Whitespace skipping, as the WHITESPACE pattern of the json module. -/
def skipWs : List Char → List Char
  | [] => []
  | c :: cs =>
      if c = ' ' ∨ c = '\t' ∨ c = '\n' ∨ c = '\r' then skipWs cs else c :: cs

/-- Value of a hexadecimal digit character, either case. -/
def hexVal (c : Char) : Option Nat :=
  if 48 ≤ c.toNat ∧ c.toNat ≤ 57 then some (c.toNat - 48)
  else if 97 ≤ c.toNat ∧ c.toNat ≤ 102 then some (c.toNat - 87)
  else if 65 ≤ c.toNat ∧ c.toNat ≤ 70 then some (c.toNat - 55)
  else none

/-- Value of a four-hex-digit escape body. -/
def hex4Val (a b c d : Char) : Option Nat := do
  let x ← hexVal a
  let y ← hexVal b
  let z ← hexVal c
  let w ← hexVal d
  pure (((x * 16 + y) * 16 + z) * 16 + w)

/-- The single-character string escapes the json module accepts. -/
def escCode (c : Char) : Option Char :=
  if c = '"' then some '"'
  else if c = '\\' then some '\\'
  else if c = '/' then some '/'
  else if c = 'b' then some (Char.ofNat 8)
  else if c = 'f' then some (Char.ofNat 12)
  else if c = 'n' then some '\n'
  else if c = 'r' then some '\r'
  else if c = 't' then some '\t'
  else none

/-- Four hex digits at the head of the input, with their value. -/
def takeHex4 : List Char → Option (Nat × List Char)
  | a :: b :: c :: d :: rest =>
      match hex4Val a b c d with
      | some n => some (n, rest)
      | none => none
  | _ => none

/-- A low surrogate escape at the head of the input, with its value. -/
def takeLowSurrogate : List Char → Option (Nat × List Char)
  | e :: u :: rest =>
      if e = '\\' then
        if u = 'u' then
          match takeHex4 rest with
          | some (m, rest2) =>
              if 56320 ≤ m then if m < 57344 then some (m, rest2) else none
              else none
          | none => none
        else none
      else none
  | _ => none

/-- One escape sequence after a backslash, handled as the json module does:
the single-character escapes, or a \uXXXX escape, with a surrogate pair
combined into one code point.  A lone surrogate, which a Lean Char cannot
represent, is rejected.  Returns the decoded character and the rest. -/
def takeEscape : List Char → Option (Char × List Char)
  | [] => none
  | e :: rest2 =>
    if e = 'u' then
      match takeHex4 rest2 with
      | none => none
      | some (n, rest3) =>
        if n < 55296 then some (Char.ofNat n, rest3)
        else if n < 56320 then
          match takeLowSurrogate rest3 with
          | none => none
          | some (m, rest4) =>
              some (Char.ofNat (65536 + (n - 55296) * 1024 + (m - 56320)), rest4)
        else if n < 57344 then none
        else some (Char.ofNat n, rest3)
    else
      match escCode e with
      | none => none
      | some c2 => some (c2, rest2)

/-- Parse a string body up to and including the closing quote, returning the
decoded characters and the remaining input.  The fuel only makes the
recursion structural; every step consumes input, so any fuel above the
input length is enough. -/
def parseStrBody : Nat → List Char → Option (List Char × List Char)
  | 0, _ => none
  | _ + 1, [] => none
  | f + 1, c :: rest =>
    if c = '"' then some ([], rest)
    else if c = '\\' then
      match takeEscape rest with
      | none => none
      | some (c2, rest2) =>
        match parseStrBody f rest2 with
        | some (s, r) => some (c2 :: s, r)
        | none => none
    else if c.toNat < 32 then none
    else
      match parseStrBody f rest with
      | some (s, r) => some (c :: s, r)
      | none => none

/-- Maximal run of decimal digit characters. -/
def takeDigits : List Char → List Char × List Char
  | [] => ([], [])
  | c :: cs =>
      if 48 ≤ c.toNat ∧ c.toNat ≤ 57 then
        let (d, r) := takeDigits cs
        (c :: d, r)
      else ([], c :: cs)

/-- Numeric value of a digit run. -/
def digitsToNat (ds : List Char) : Nat :=
  ds.foldl (fun a c => a * 10 + (c.toNat - 48)) 0

/-- Parse an unsigned integer literal following the integer part of the json
number grammar: a single zero, or a nonzero digit followed by a maximal digit
run. -/
def parseNat : List Char → Option (Nat × List Char)
  | [] => none
  | c :: cs =>
      if c = '0' then some (0, cs)
      else if 48 ≤ c.toNat ∧ c.toNat ≤ 57 then
        let (d, r) := takeDigits cs
        some (digitsToNat (c :: d), r)
      else none

/-- Parse a possibly signed integer literal. -/
def parseInt : List Char → Option (Int × List Char)
  | [] => none
  | c :: cs =>
      if c = '-' then do
        let (n, r) ← parseNat cs
        pure (-(n : Int), r)
      else do
        let (n, r) ← parseNat (c :: cs)
        pure ((n : Int), r)

/-- Insert one parsed member with Python dict semantics: an existing key keeps
its position and takes the new value, a new key is appended. -/
def insertPair (acc : List (String × JValue)) (p : String × JValue) :
    List (String × JValue) :=
  if acc.any (fun q => q.1 = p.1) then
    acc.map (fun q => if q.1 = p.1 then (q.1, p.2) else q)
  else acc ++ [p]

/-- Build a dict from parsed members, as dict(pairs) does. -/
def dictOf (ps : List (String × JValue)) : List (String × JValue) :=
  ps.foldl insertPair []

/-- Drop an expected literal character sequence from the input. -/
def dropLit : List Char → List Char → Option (List Char)
  | [], cs => some cs
  | _ :: _, [] => none
  | l :: ls, c :: cs => if c = l then dropLit ls cs else none

mutual
/-- Parse one JSON value (no leading whitespace).  The fuel argument bounds
the nesting the parser will follow; the top level supplies more fuel than any
document of the given length can need. -/
def parseValue : Nat → List Char → Option (JValue × List Char)
  | 0, _ => none
  | _ + 1, [] => none
  | f + 1, c :: cs =>
    if c = 'n' then
      match dropLit ['u', 'l', 'l'] cs with
      | some rest => some (.null, rest)
      | none => none
    else if c = 't' then
      match dropLit ['r', 'u', 'e'] cs with
      | some rest => some (.bool true, rest)
      | none => none
    else if c = 'f' then
      match dropLit ['a', 'l', 's', 'e'] cs with
      | some rest => some (.bool false, rest)
      | none => none
    else if c = '"' then
      match parseStrBody (cs.length + 1) cs with
      | some (s, r) => some (.str (String.mk s), r)
      | none => none
    else if c = '[' then
      match skipWs cs with
      | [] => none
      | c1 :: cs1 =>
        if c1 = ']' then some (.arr [], cs1)
        else
          match parseValue f (c1 :: cs1) with
          | none => none
          | some (v, r1) =>
            match parseMore f r1 with
            | none => none
            | some (vs, r2) => some (.arr (v :: vs), r2)
    else if c = '{' then
      match skipWs cs with
      | [] => none
      | c1 :: cs1 =>
        if c1 = '}' then some (.obj [], cs1)
        else if c1 = '"' then
          match parseStrBody (cs1.length + 1) cs1 with
          | none => none
          | some (k, r1) =>
            match skipWs r1 with
            | [] => none
            | c2 :: r2 =>
              if c2 = ':' then
                match parseValue f (skipWs r2) with
                | none => none
                | some (v, r3) =>
                  match parseMorePairs f r3 with
                  | none => none
                  | some (ps, r4) =>
                      some (.obj (dictOf ((String.mk k, v) :: ps)), r4)
              else none
        else none
    else
      match parseInt (c :: cs) with
      | none => none
      | some (m, r) => some (.int m, r)

/-- Parse the items after the first of an array: either the closing bracket
or a comma followed by another value, with no trailing comma accepted. -/
def parseMore : Nat → List Char → Option (List JValue × List Char)
  | 0, _ => none
  | f + 1, cs =>
    match skipWs cs with
    | [] => none
    | c1 :: cs1 =>
      if c1 = ']' then some ([], cs1)
      else if c1 = ',' then
        match parseValue f (skipWs cs1) with
        | none => none
        | some (v, r1) =>
          match parseMore f r1 with
          | none => none
          | some (vs, r2) => some (v :: vs, r2)
      else none

/-- Parse the members after the first of an object. -/
def parseMorePairs : Nat → List Char → Option (List (String × JValue) × List Char)
  | 0, _ => none
  | f + 1, cs =>
    match skipWs cs with
    | [] => none
    | c1 :: cs1 =>
      if c1 = '}' then some ([], cs1)
      else if c1 = ',' then
        match skipWs cs1 with
        | [] => none
        | c2 :: cs2 =>
          if c2 = '"' then
            match parseStrBody (cs2.length + 1) cs2 with
            | none => none
            | some (k, r1) =>
              match skipWs r1 with
              | [] => none
              | c3 :: r2 =>
                if c3 = ':' then
                  match parseValue f (skipWs r2) with
                  | none => none
                  | some (v, r3) =>
                    match parseMorePairs f r3 with
                    | none => none
                    | some (ps, r4) => some ((String.mk k, v) :: ps, r4)
                else none
          else none
      else none
end

/-- json.loads on the embedded domain: skip surrounding whitespace, parse one
value, and require that nothing but whitespace remains. -/
def loads (s : String) : Option JValue :=
  match parseValue (s.length + 1) (skipWs s.data) with
  | some (v, rest) => if skipWs rest = [] then some v else none
  | none => none

/-! ### The run function of src/npoint_automator.py

The script is a single sequential browser automation.  Browser and network
outcomes are oracle inputs: each input file carries whether it exists on
disk, what json.load returns for it (or that it raises), whether the in-page
creation button is found at once, and the final browser location of a fully
successful publish (or that some UI step raised).  The observable actions of
the run are collected as a trace of effects. -/

/-- str.split(sep) for a single-character separator: splits at every
occurrence, keeping empty groups, never returning an empty list. -/
def splitOnChar (sep : Char) : List Char → List (List Char)
  | [] => [[]]
  | c :: cs =>
      if c = sep then [] :: splitOnChar sep cs
      else
        match splitOnChar sep cs with
        | g :: gs => (c :: g) :: gs
        | [] => [[c]]

/-- os.path.basename of a POSIX path: the part after the last slash. -/
def basename (p : String) : String :=
  String.mk ((splitOnChar '/' p.data).getLastD [])

/-- Index of the last dot of a character list, if any. -/
def lastDotIndex : List Char → Option Nat
  | [] => none
  | c :: cs =>
      match lastDotIndex cs with
      | some i => some (i + 1)
      | none => if c = '.' then some 0 else none

/-- The stem os.path.splitext(b)[0] of a basename: everything before the last
dot, unless every character before that dot is itself a dot (so a leading-dot
name such as .bashrc keeps its dot). -/
def splitextStem (b : String) : String :=
  match lastDotIndex b.data with
  | none => b
  | some i => if (b.data.take i).any (fun c => c ≠ '.') then
                String.mk (b.data.take i)
              else b

/-- The final path segment of a URL, as url.split("/")[-1] at line 164. -/
def lastSegment (u : String) : String :=
  String.mk ((splitOnChar '/' u.data).getLastD [])

/-- The public read URL of a bin, lines 165 and 183. -/
def apiUrl (binId : String) : String := "https://api.npoint.io/" ++ binId

/-- The dashboard URL used by the creation fallback, line 128. -/
def docsUrl : String := "https://www.npoint.io/docs"

/-- The edit page of the registry bin, line 197. -/
def registryEditUrl (regId : String) : String :=
  "https://www.npoint.io/docs/" ++ regId

/-- dict.get(k, dflt) on the member list of a JSON object: the stored value
when the key is present (even a null), the default otherwise. -/
def dictGet (fs : List (String × JValue)) (k : String) (dflt : JValue) : JValue :=
  (jfind k fs).getD dflt

/-- bin_title at line 115: the title field if present, else the basename. -/
def titleOf (fs : List (String × JValue)) (path : String) : JValue :=
  dictGet fs "title" (.str (basename path))

/-- bin_id_key at line 116: the id field if present, else the filename stem. -/
def idKeyOf (fs : List (String × JValue)) (path : String) : JValue :=
  dictGet fs "id" (.str (splitextStem (basename path)))

/-- One entry appended to new_registry_entries at lines 169 to 173. -/
structure PublishedRecord where
  id : JValue
  title : JValue
  url : String
deriving DecidableEq

/-- The dict literal of lines 169 to 173 as a JSON value. -/
def recordToJson (r : PublishedRecord) : JValue :=
  .obj [("id", r.id), ("title", r.title), ("url", .str r.url)]

/-- Observable actions of the run.  The clipboard constructors are part of
the driven browser API surface; this script never performs them (its content
insertion is the single keyboard.insert_text call at lines 153 and 206).
The screenshot effect records the bin_id_key value interpolated into the
debug file name; the formatting of that value into the name is not
modelled. -/
inductive Effect where
  | gotoUrl : String → Effect
  | clickNewBin : Effect
  | focusEditor : Effect
  | pressSelectAll : Effect
  | pressBackspace : Effect
  | insertText : String → Effect
  | clipboardWrite : String → Effect
  | pastePress : Effect
  | clickSave : Effect
  | httpGet : String → Effect
  | screenshot : JValue → Effect
deriving DecidableEq

/-- Oracle description of one input file and of the browser behaviour while
publishing it: whether the file exists (line 104), what json.load returns at
line 112 (none meaning it raises), whether the plus-New button is found
within its timeout at line 125, and the final page.url after a fully
successful pass through lines 125 to 164 (none meaning some browser step
raised). -/
structure FileSpec where
  path : String
  onDisk : Bool
  parsed : Option JValue
  newBtnInstant : Bool
  uiUrl : Option String

/-- Effects of the creation flow at lines 124 to 129: the direct click, or
the dashboard navigation followed by the click. -/
def navTrace (f : FileSpec) : List Effect :=
  if f.newBtnInstant then [.clickNewBin]
  else [.gotoUrl docsUrl, .clickNewBin]

/-- Effects of a fully successful pass through lines 125 to 164. -/
def publishTrace (f : FileSpec) (content : JValue) : List Effect :=
  navTrace f ++
    [.focusEditor, .pressSelectAll, .pressBackspace,
     .insertText (dumps content), .clickSave]

/-- One iteration of the loop at lines 103 to 176.  The first argument is the
current value of the loop-carried local bin_id_key (none while it has never
been assigned).  The result is none when the iteration raises an uncaught
exception: a failure before line 116 binds bin_id_key leaves the except
handler at line 176 referencing an unbound local, so the handler itself
raises NameError, which nothing catches.  Otherwise the iteration yields the
record it appended (if any), the new bin_id_key value, and its effects.
Effects of a partially completed browser interaction before a UI failure are
not modelled (no claim refers to them). -/
def processFile (lastKey : Option JValue) (f : FileSpec) :
    Option (Option PublishedRecord × Option JValue × List Effect) :=
  if f.onDisk = false then some (none, lastKey, [])
  else
    match f.parsed with
    | none =>
        match lastKey with
        | none => none
        | some k => some (none, lastKey, [.screenshot k])
    | some content =>
        match content with
        | .obj fields =>
            let key := idKeyOf fields f.path
            match f.uiUrl with
            | none => some (none, some key, [.screenshot key])
            | some u =>
                some (some ⟨key, titleOf fields f.path,
                        apiUrl (lastSegment u)⟩,
                      some key, publishTrace f content)
        | _ =>
            match lastKey with
            | none => none
            | some k => some (none, lastKey, [.screenshot k])

/-- The whole loop at lines 103 to 176: records and effects accumulate in
order; an uncaught exception aborts the loop (and the run), leaving the
remaining files unprocessed. -/
def runLoop (lastKey : Option JValue) :
    List FileSpec → List PublishedRecord × List Effect × Bool
  | [] => ([], [], false)
  | f :: fs =>
      match processFile lastKey f with
      | none => ([], [], true)
      | some (recOpt, key', effs) =>
          let (recs, effs2, ab) := runLoop key' fs
          (recOpt.toList ++ recs, effs ++ effs2, ab)

/-- item.get('id') at line 193: raises (none) on a non-dict item, else the
stored id value with null standing for the Python None default. -/
def pyGetId : JValue → Option JValue
  | .obj fs => some (dictGet fs "id" .null)
  | _ => none

/-- The list comprehension at line 193.  Membership is Python membership:
the entry id is compared with every new id under the Python == operator
(so a boolean id equals the integer it stands for, and composite ids
compare the way Python lists and dicts do). -/
def filterRegistry (newIds : List JValue) : List JValue → Option (List JValue)
  | [] => some []
  | item :: rest => do
      let idv ← pyGetId item
      let tail ← filterRegistry newIds rest
      if idMem idv newIds then pure tail else pure (item :: tail)

/-- Lines 192 to 194: drop current entries whose id is among the new ids,
then append the new entries in publication order.  none models the uncaught
AttributeError raised at line 193 by a non-dict item. -/
def mergeRegistry (current : List JValue) (recs : List PublishedRecord) :
    Option (List JValue) := do
  let filtered ← filterRegistry (recs.map (·.id)) current
  pure (filtered ++ recs.map recordToJson)

/-- Lines 183 to 189: the fetched registry, empty when the fetch raised or
the body is not a list. -/
def fetchedRegistry (fetchResult : Option JValue) : List JValue :=
  match fetchResult with
  | some (.arr xs) => xs
  | _ => []

/-- Outcome of the registry step: skipped entirely, written with the merged
content, or crashed by the uncaught AttributeError of line 193. -/
inductive RegOutcome where
  | skipped : RegOutcome
  | written : List JValue → RegOutcome
  | crashed : RegOutcome
deriving DecidableEq

/-- Lines 179 to 213: nothing happens without new entries; otherwise the
registry is fetched, merged and written back through the editor of its own
edit page. -/
def registryPhase (regId : String) (fetchResult : Option JValue)
    (recs : List PublishedRecord) : RegOutcome × List Effect :=
  if recs.isEmpty then (.skipped, [])
  else
    match mergeRegistry (fetchedRegistry fetchResult) recs with
    | none => (.crashed, [.httpGet (apiUrl regId)])
    | some updated =>
        (.written updated,
         [.httpGet (apiUrl regId),
          .gotoUrl (registryEditUrl regId),
          .focusEditor, .pressSelectAll, .pressBackspace,
          .insertText (dumps (.arr updated)), .clickSave])

/-- Result of one run: the accumulated records, the full effect trace, the
registry outcome, and whether an uncaught exception aborted the loop (in
which case the registry step never runs). -/
structure RunResult where
  records : List PublishedRecord
  effects : List Effect
  outcome : RegOutcome
  aborted : Bool
deriving DecidableEq

/-- The body of run() after login: the per-file loop followed by the registry
step, lines 103 to 213. -/
def npointRun (regId : String) (fetchResult : Option JValue)
    (files : List FileSpec) : RunResult :=
  match runLoop none files with
  | (recs, effs, true) => ⟨recs, effs, .skipped, true⟩
  | (recs, effs, false) =>
      let (out, reffs) := registryPhase regId fetchResult recs
      ⟨recs, effs ++ reffs, out, false⟩

/-! ### Lemmas about the registry merge -/

/-- The id a registry entry presents to the filter of line 193: its id field,
with null standing for the Python None that dict.get returns for a missing
key. -/
def entryIdOf (e : JValue) : JValue := (pyGetId e).getD .null

/-- A registry entry that is an object with no id field at all. -/
def lacksId : JValue → Bool
  | .obj fs => (jfind "id" fs).isNone
  | _ => false

theorem filterRegistry_eq (newIds : List JValue) :
    ∀ current : List JValue, (∀ e ∈ current, (pyGetId e).isSome) →
    filterRegistry newIds current =
      some (current.filter (fun e => !(idMem (entryIdOf e) newIds))) := by
  intro current
  induction current with
  | nil => intro _; rfl
  | cons e rest ih =>
      intro h
      have he : (pyGetId e).isSome := h e (by simp)
      obtain ⟨idv, hid⟩ := Option.isSome_iff_exists.mp he
      have hrest := ih (fun x hx => h x (by simp [hx]))
      have hidv : entryIdOf e = idv := by simp [entryIdOf, hid]
      by_cases hmem : idMem idv newIds
      · simp [filterRegistry, hid, hrest, List.filter, hidv, hmem]
      · simp [filterRegistry, hid, hrest, List.filter, hidv, hmem]

theorem filterRegistry_isSome (newIds : List JValue) :
    ∀ (current : List JValue) (l : List JValue),
    filterRegistry newIds current = some l →
    ∀ e ∈ current, (pyGetId e).isSome := by
  intro current
  induction current with
  | nil => simp
  | cons e rest ih =>
      intro l hl x hx
      simp only [filterRegistry, Option.bind_eq_bind, Option.bind_eq_some] at hl
      obtain ⟨idv, hid, tail, htail, _⟩ := hl
      rcases List.mem_cons.mp hx with hx | hx
      · subst hx; simp [hid]
      · exact ih tail htail x hx

theorem mergeRegistry_eq (current : List JValue) (recs : List PublishedRecord)
    (hobj : ∀ e ∈ current, (pyGetId e).isSome) :
    mergeRegistry current recs =
      some (current.filter
              (fun e => !(idMem (entryIdOf e) (recs.map PublishedRecord.id))) ++
            recs.map recordToJson) := by
  simp [mergeRegistry, filterRegistry_eq _ current hobj]

theorem entryIdOf_recordToJson (r : PublishedRecord) :
    entryIdOf (recordToJson r) = r.id := by
  simp [entryIdOf, recordToJson, pyGetId, dictGet, jfind]

theorem lacksId_recordToJson (r : PublishedRecord) :
    lacksId (recordToJson r) = false := by
  simp [lacksId, recordToJson, jfind]

theorem filter_map_recordToJson (recs : List PublishedRecord)
    (p : JValue → Bool) :
    (recs.map recordToJson).filter p =
      (recs.filter (fun r => p (recordToJson r))).map recordToJson := by
  induction recs with
  | nil => rfl
  | cons r rest ih =>
      by_cases h : p (recordToJson r) <;>
        simp [List.filter, List.map, h, ih]

/-- Among records whose ids are pairwise unequal under Python ==, filtering
by Python equality with one record's id keeps exactly that record. -/
theorem filter_by_pyEq (recs : List PublishedRecord)
    (hwf : ∀ r ∈ recs, wfJ r.id = true)
    (hnodup : (recs.map PublishedRecord.id).Pairwise
      (fun x y => pyEq x y = false ∧ pyEq y x = false)) :
    ∀ r ∈ recs, recs.filter (fun q => pyEq q.id r.id) = [r] := by
  induction recs with
  | nil => simp
  | cons q rest ih =>
      intro r hr
      simp only [List.map_cons, List.pairwise_cons] at hnodup
      rcases List.mem_cons.mp hr with hr | hr
      · subst hr
        have hrest : rest.filter (fun q => pyEq q.id r.id) = [] := by
          rw [List.filter_eq_nil_iff]
          intro a ha
          have hpa := hnodup.1 a.id (List.mem_map_of_mem PublishedRecord.id ha)
          simp [hpa.2]
        simp [List.filter_cons, pyEq_refl r.id (hwf r (by simp)), hrest]
      · have hq : pyEq q.id r.id = false :=
          (hnodup.1 r.id (List.mem_map_of_mem PublishedRecord.id hr)).1
        rw [List.filter_cons]
        simp only [hq, Bool.false_eq_true, if_false]
        exact ih (fun a ha => hwf a (by simp [ha])) hnodup.2 r hr

/-! ### Lemmas about the effect traces -/

theorem mem_publishTrace (f : FileSpec) (c : JValue) (e : Effect)
    (he : e ∈ publishTrace f c) :
    e = .clickNewBin ∨ e = .gotoUrl docsUrl ∨ e = .focusEditor ∨
    e = .pressSelectAll ∨ e = .pressBackspace ∨
    e = .insertText (dumps c) ∨ e = .clickSave := by
  by_cases h : f.newBtnInstant <;>
    simp [publishTrace, navTrace, h] at he <;> tauto

theorem processFile_trace_cases (key : Option JValue) (f : FileSpec)
    (res : Option PublishedRecord × Option JValue × List Effect)
    (h : processFile key f = some res) :
    res.2.2 = [] ∨ (∃ k, res.2.2 = [Effect.screenshot k]) ∨
    (∃ c, res.2.2 = publishTrace f c) := by
  unfold processFile at h
  repeat' split at h
  all_goals cases h
  all_goals first
    | (left; rfl)
    | (right; left; exact ⟨_, rfl⟩)
    | (right; right; exact ⟨_, rfl⟩)

/-- Every effect the per-file loop can emit: there is no http request, no
clipboard write, no paste, and the only navigation target is the dashboard. -/
theorem mem_runLoop_effects :
    ∀ (files : List FileSpec) (key : Option JValue) (e : Effect),
    e ∈ (runLoop key files).2.1 →
    e = .clickNewBin ∨ e = .gotoUrl docsUrl ∨ e = .focusEditor ∨
    e = .pressSelectAll ∨ e = .pressBackspace ∨
    (∃ s, e = .insertText s) ∨ e = .clickSave ∨ (∃ k, e = .screenshot k) := by
  intro files
  induction files with
  | nil => intro key e he; simp [runLoop] at he
  | cons f fs ih =>
      intro key e he
      rw [runLoop] at he
      match hp : processFile key f with
      | none => rw [hp] at he; simp at he
      | some res =>
          rw [hp] at he
          obtain ⟨recOpt, key', effs⟩ := res
          simp only [List.mem_append] at he
          rcases he with he | he
          · rcases processFile_trace_cases key f _ hp with h0 | ⟨k, hk⟩ | ⟨c, hc⟩
            · simp only at h0; rw [h0] at he; simp at he
            · simp only at hk; rw [hk] at he
              simp at he; subst he; right; right; right; right; right; right
              exact Or.inr ⟨k, rfl⟩
            · simp only at hc; rw [hc] at he
              rcases mem_publishTrace f c e he with h | h | h | h | h | h | h <;>
                subst h <;> simp
          · exact ih key' e he

/-- Every effect the registry step can emit. -/
theorem mem_registryPhase_effects (regId : String) (fetch : Option JValue)
    (recs : List PublishedRecord) (e : Effect)
    (he : e ∈ (registryPhase regId fetch recs).2) :
    e = .httpGet (apiUrl regId) ∨ e = .gotoUrl (registryEditUrl regId) ∨
    e = .focusEditor ∨ e = .pressSelectAll ∨ e = .pressBackspace ∨
    (∃ s, e = .insertText s) ∨ e = .clickSave := by
  unfold registryPhase at he
  by_cases hne : recs.isEmpty
  · rw [if_pos hne] at he; simp at he
  · rw [if_neg hne] at he
    match hm : mergeRegistry (fetchedRegistry fetch) recs with
    | none => rw [hm] at he; simp at he; subst he; left; rfl
    | some updated =>
        rw [hm] at he
        simp only [List.mem_cons, List.not_mem_nil, or_false] at he
        rcases he with h | h | h | h | h | h | h
        · subst h; left; rfl
        · subst h; right; left; rfl
        · subst h; right; right; left; rfl
        · subst h; right; right; right; left; rfl
        · subst h; right; right; right; right; left; rfl
        · subst h; right; right; right; right; right; left
          exact ⟨_, rfl⟩
        · subst h; right; right; right; right; right; right; rfl

/-- The dashboard URL and the registry edit URL are distinct, whatever the
registry bin id is (the edit URL carries a trailing slash before the id). -/
theorem registryEditUrl_ne_docsUrl (regId : String) :
    registryEditUrl regId ≠ docsUrl := by
  intro h
  have hl : ("https://www.npoint.io/docs/" ++ regId).length = docsUrl.length :=
    congrArg String.length h
  rw [String.length_append] at hl
  have h1 : ("https://www.npoint.io/docs/" : String).length = 27 := rfl
  have h2 : docsUrl.length = 26 := rfl
  omega

/-! ### Concrete specimens used by witnesses and counterexamples -/

/-- A well-formed artifact content with explicit id and title fields. -/
def sampleContent : JValue := .obj [("id", .str "g"), ("title", .str "T")]

/-- An input file that publishes successfully. -/
def sampleFile : FileSpec :=
  ⟨"lessons/good.json", true, some sampleContent, true,
   some "https://www.npoint.io/docs/xyz"⟩

/-- The record the sample file produces. -/
def sampleRecord : PublishedRecord :=
  ⟨.str "g", .str "T", "https://api.npoint.io/xyz"⟩

/-- An input file whose json.load raises (not parseable as JSON). -/
def badFile : FileSpec := ⟨"lessons/bad.json", true, none, true, none⟩

/-- The members of the concrete scenario content of the spec. -/
def plantsFields : List (String × JValue) :=
  [("id", .str "grade-5-plants"), ("title", .str "Plants Unit"),
   ("payload", .arr [.int 1, .int 2])]

/-- The concrete scenario of the spec: grade-5-plants content saved under
the generated identifier abc123. -/
def plantsContent : JValue := .obj plantsFields

/-- The file carrying the plants content. -/
def plantsFile : FileSpec :=
  ⟨"lessons/grade-5-plants.json", true, some plantsContent, true,
   some "https://www.npoint.io/docs/abc123"⟩

/-- The record the plants scenario must produce. -/
def plantsRecord : PublishedRecord :=
  ⟨.str "grade-5-plants", .str "Plants Unit", "https://api.npoint.io/abc123"⟩

/-- A pre-existing registry entry with the plants logical id. -/
def plantsOldEntry : JValue :=
  .obj [("id", .str "grade-5-plants"), ("title", .str "Old"),
        ("url", .str "https://api.npoint.io/old")]

/-! ### Claim C3 (code bug) -/

/-- Claim C3 states that any exception while reading or publishing one
artifact is caught and the remaining artifacts are still attempted.  The
code breaks this when the very first failure happens before line 116 has
ever bound bin_id_key (for example, the first file is not parseable JSON):
the except handler of line 176 then references the unbound local and raises
NameError, aborting the whole run.  This theorem evaluates the embedded run
at such an input: with the unparseable file first, the run aborts with no
records even though the second file publishes fine on its own; with the
unparseable file second, the handler works and the run continues. -/
theorem c3_first_failure_aborts_run :
    (npointRun "reg" none [badFile, sampleFile]).aborted = true ∧
    (npointRun "reg" none [badFile, sampleFile]).records = [] ∧
    (npointRun "reg" none [sampleFile]).records = [sampleRecord] ∧
    (npointRun "reg" none [sampleFile, badFile]).aborted = false ∧
    (npointRun "reg" none [sampleFile, badFile]).records = [sampleRecord] := by
  decide

/-! ### Claim C6 (confirmed) -/

/-- A run that accumulated no records skips the registry step and its trace
is exactly the per-file loop trace. -/
theorem npointRun_no_records (regId : String) (fetch : Option JValue)
    (files : List FileSpec)
    (h : (npointRun regId fetch files).records = []) :
    (npointRun regId fetch files).outcome = .skipped ∧
    (npointRun regId fetch files).effects = (runLoop none files).2.1 := by
  rcases hr : runLoop none files with ⟨recs, effs, ab⟩
  cases ab
  · simp only [npointRun, hr] at h ⊢
    subst h
    simp [registryPhase]
  · simp only [npointRun, hr] at h ⊢
    exact ⟨trivial, trivial⟩

/-- Claim C6: in every run in which zero artifacts are successfully
published, no registry fetch is issued and no registry write occurs — the
registry step is skipped, the trace holds no http request at all, and the
browser never navigates to the registry edit page. -/
theorem c6_no_records_no_registry_touch (regId : String)
    (fetch : Option JValue) (files : List FileSpec)
    (h : (npointRun regId fetch files).records = []) :
    (npointRun regId fetch files).outcome = .skipped ∧
    (∀ u, Effect.httpGet u ∉ (npointRun regId fetch files).effects) ∧
    Effect.gotoUrl (registryEditUrl regId) ∉
      (npointRun regId fetch files).effects := by
  obtain ⟨hout, heff⟩ := npointRun_no_records regId fetch files h
  refine ⟨hout, ?_, ?_⟩
  · intro u hc
    rw [heff] at hc
    rcases mem_runLoop_effects files none _ hc with
      h' | h' | h' | h' | h' | ⟨s, h'⟩ | h' | ⟨k, h'⟩ <;> cases h'
  · intro hc
    rw [heff] at hc
    rcases mem_runLoop_effects files none _ hc with
      h' | h' | h' | h' | h' | ⟨s, h'⟩ | h' | ⟨k, h'⟩ <;> try cases h'
    have : registryEditUrl regId = docsUrl := by
      injection h'
    exact registryEditUrl_ne_docsUrl regId this

/-- Witness for C6 at a run whose only file fails to publish. -/
theorem c6_witness :
    (npointRun "reg" none
        [⟨"lessons/one.json", true, some (.obj []), true, none⟩]).outcome =
      RegOutcome.skipped :=
  (c6_no_records_no_registry_touch "reg" none
    [⟨"lessons/one.json", true, some (.obj []), true, none⟩] (by decide)).1

/-! ### Claim C5 (corrected) -/

/-- Every effect of a run comes from the per-file loop or the registry
step. -/
theorem mem_npointRun_effects (regId : String) (fetch : Option JValue)
    (files : List FileSpec) (e : Effect)
    (he : e ∈ (npointRun regId fetch files).effects) :
    e ∈ (runLoop none files).2.1 ∨
    e ∈ (registryPhase regId fetch (runLoop none files).1).2 := by
  rcases hr : runLoop none files with ⟨recs, effs, ab⟩
  cases ab
  · simp only [npointRun, hr] at he
    rw [List.mem_append] at he
    exact he
  · simp only [npointRun, hr] at he
    exact Or.inl he

/-- Counterexample to claim C5 as stated: claim C5 requires the serialized
JSON to be written to the clipboard and pasted first, with direct insertion
only on a clipboard failure.  In this fully successful run the serialized
JSON is inserted directly while no clipboard write and no paste ever
happens. -/
theorem c5_counterexample :
    Effect.insertText (dumps sampleContent) ∈
      (npointRun "reg" none [sampleFile]).effects ∧
    Effect.clipboardWrite (dumps sampleContent) ∉
      (npointRun "reg" none [sampleFile]).effects ∧
    Effect.pastePress ∉ (npointRun "reg" none [sampleFile]).effects := by
  decide

/-- Claim C5 as amended: content insertion is single tier.  The run never
writes the clipboard and never pastes, and an artifact that reaches the
insertion step gets its serialized JSON inserted directly as synthetic
keyboard input. -/
theorem c5_single_tier_insertion :
    (∀ (regId : String) (fetch : Option JValue) (files : List FileSpec)
       (s : String),
       Effect.clipboardWrite s ∉ (npointRun regId fetch files).effects ∧
       Effect.pastePress ∉ (npointRun regId fetch files).effects) ∧
    (∀ (key : Option JValue) (f : FileSpec) (fields : List (String × JValue))
       (u : String),
       f.onDisk = true → f.parsed = some (.obj fields) → f.uiUrl = some u →
       processFile key f =
         some (some ⟨idKeyOf fields f.path, titleOf fields f.path,
                 apiUrl (lastSegment u)⟩,
               some (idKeyOf fields f.path), publishTrace f (.obj fields)) ∧
       Effect.insertText (dumps (.obj fields)) ∈
         publishTrace f (.obj fields)) := by
  constructor
  · intro regId fetch files s
    constructor
    · intro hc
      rcases mem_npointRun_effects regId fetch files _ hc with h | h
      · rcases mem_runLoop_effects files none _ h with
          h' | h' | h' | h' | h' | ⟨t, h'⟩ | h' | ⟨k, h'⟩ <;> cases h'
      · rcases mem_registryPhase_effects regId fetch _ _ h with
          h' | h' | h' | h' | h' | ⟨t, h'⟩ | h' <;> cases h'
    · intro hc
      rcases mem_npointRun_effects regId fetch files _ hc with h | h
      · rcases mem_runLoop_effects files none _ h with
          h' | h' | h' | h' | h' | ⟨t, h'⟩ | h' | ⟨k, h'⟩ <;> cases h'
      · rcases mem_registryPhase_effects regId fetch _ _ h with
          h' | h' | h' | h' | h' | ⟨t, h'⟩ | h' <;> cases h'
  · intro key f fields u hdisk hparse hui
    constructor
    · simp [processFile, hdisk, hparse, hui]
    · by_cases hb : f.newBtnInstant <;> simp [publishTrace, navTrace, hb]

/-- Witness for the amended C5 at the sample run. -/
theorem c5_witness :
    Effect.clipboardWrite "x" ∉ (npointRun "reg" none [sampleFile]).effects ∧
    Effect.insertText (dumps (.obj [("id", .str "g"), ("title", .str "T")])) ∈
      publishTrace sampleFile (.obj [("id", .str "g"), ("title", .str "T")]) :=
  ⟨(c5_single_tier_insertion.1 "reg" none [sampleFile] "x").1,
   (c5_single_tier_insertion.2 none sampleFile
      [("id", .str "g"), ("title", .str "T")]
      "https://www.npoint.io/docs/xyz" (by decide) (by decide) (by decide)).2⟩

/-! ### Claim C2 (confirmed) -/

/-- Claim C2: with at least one published record, a failed registry fetch or
a non-list fetched value still leads to reconciliation against an empty
prior registry, so the written registry is exactly the records of the
current run in publication order. -/
theorem c2_fail_open (regId : String) (fetch : Option JValue)
    (recs : List PublishedRecord) (hne : recs ≠ [])
    (hfail : fetch = none ∨ ∀ xs, fetch ≠ some (.arr xs)) :
    registryPhase regId fetch recs =
      (.written (recs.map recordToJson),
       [.httpGet (apiUrl regId), .gotoUrl (registryEditUrl regId),
        .focusEditor, .pressSelectAll, .pressBackspace,
        .insertText (dumps (.arr (recs.map recordToJson))), .clickSave]) := by
  have hcur : fetchedRegistry fetch = [] := by
    rcases hfail with h | h
    · rw [h]; rfl
    · cases fetch with
      | none => rfl
      | some v =>
          cases v with
          | arr xs => exact absurd rfl (h xs)
          | null => rfl
          | bool b => rfl
          | int n => rfl
          | str s => rfl
          | obj fs => rfl
  have hemp : recs.isEmpty = false := by
    cases recs with
    | nil => exact absurd rfl hne
    | cons r rest => rfl
  rw [registryPhase, if_neg (by rw [hemp]; exact Bool.false_ne_true), hcur]
  have hm : mergeRegistry [] recs = some (recs.map recordToJson) := by
    simp [mergeRegistry, filterRegistry]
  rw [hm]

/-- Witness for C2: one published record, fetch raised. -/
theorem c2_witness :
    registryPhase "registry" none [sampleRecord] =
      (.written [recordToJson sampleRecord],
       [.httpGet (apiUrl "registry"), .gotoUrl (registryEditUrl "registry"),
        .focusEditor, .pressSelectAll, .pressBackspace,
        .insertText (dumps (.arr [recordToJson sampleRecord])), .clickSave]) :=
  c2_fail_open "registry" none [sampleRecord] (by decide) (Or.inl rfl)

/-! ### Claim C1 (corrected) -/

/-- Counterexample to claim C1 as stated: claim C1 quantifies over every
fetched registry that is a list.  When the list holds a non-object item, the
get call of line 193 raises an uncaught AttributeError, the run dies, and no
merged registry is ever written back, so the promised upsert result does not
exist.  After the fetch, no further effect happens. -/
theorem c1_counterexample :
    registryPhase "registry" (some (.arr [.str "stray"])) [sampleRecord] =
      (RegOutcome.crashed, [Effect.httpGet "https://api.npoint.io/registry"]) := by
  decide

/-- Claim C1 as amended: for every fetched registry that is a list of
objects and every non-empty list of new records whose ids come from loaded
JSON and are pairwise unequal under Python ==, the merged registry written
back holds exactly one entry per new id (membership and id comparison being
the Python == of line 193), that entry being the new record with its title
and url, while every fetched entry whose id is not among the new ids
survives unchanged and in its original relative order. -/
theorem c1_registry_upsert (regId : String) (current : List JValue)
    (recs : List PublishedRecord)
    (hobj : ∀ e ∈ current, (pyGetId e).isSome)
    (hne : recs ≠ [])
    (hwf : ∀ r ∈ recs, wfJ r.id = true)
    (hnodup : (recs.map PublishedRecord.id).Pairwise
      (fun x y => pyEq x y = false ∧ pyEq y x = false)) :
    (registryPhase regId (some (.arr current)) recs).1 =
      .written (current.filter
          (fun e => !(idMem (entryIdOf e) (recs.map PublishedRecord.id))) ++
        recs.map recordToJson) ∧
    (∀ r ∈ recs,
      (current.filter
          (fun e => !(idMem (entryIdOf e) (recs.map PublishedRecord.id))) ++
        recs.map recordToJson).filter
        (fun e => pyEq (entryIdOf e) r.id) = [recordToJson r]) ∧
    (current.filter
        (fun e => !(idMem (entryIdOf e) (recs.map PublishedRecord.id))) ++
      recs.map recordToJson).filter
      (fun e => !(idMem (entryIdOf e) (recs.map PublishedRecord.id))) =
    current.filter
      (fun e => !(idMem (entryIdOf e) (recs.map PublishedRecord.id))) := by
  have hemp : recs.isEmpty = false := by
    cases recs with
    | nil => exact absurd rfl hne
    | cons r rest => rfl
  refine ⟨?_, ?_, ?_⟩
  · rw [registryPhase, if_neg (by rw [hemp]; exact Bool.false_ne_true)]
    have hcur : fetchedRegistry (some (.arr current)) = current := rfl
    rw [hcur, mergeRegistry_eq current recs hobj]
  · intro r hr
    rw [List.filter_append]
    have hold : (current.filter
        (fun e => !(idMem (entryIdOf e) (recs.map PublishedRecord.id)))).filter
        (fun e => pyEq (entryIdOf e) r.id) = [] := by
      rw [List.filter_eq_nil_iff]
      intro e he
      rw [List.mem_filter] at he
      have hfalse : idMem (entryIdOf e) (recs.map PublishedRecord.id) = false := by
        have h2 := he.2
        rwa [Bool.not_eq_true'] at h2
      intro hc
      have htrue : idMem (entryIdOf e) (recs.map PublishedRecord.id) = true := by
        rw [idMem]
        exact List.any_eq_true.mpr
          ⟨r.id, List.mem_map_of_mem PublishedRecord.id hr, hc⟩
      rw [htrue] at hfalse
      cases hfalse
    have hnew : (recs.map recordToJson).filter
        (fun e => pyEq (entryIdOf e) r.id) = [recordToJson r] := by
      rw [filter_map_recordToJson]
      simp only [entryIdOf_recordToJson]
      rw [filter_by_pyEq recs hwf hnodup r hr]
      rfl
    rw [hold, hnew, List.nil_append]
  · rw [List.filter_append]
    have hold : (current.filter
        (fun e => !(idMem (entryIdOf e) (recs.map PublishedRecord.id)))).filter
        (fun e => !(idMem (entryIdOf e) (recs.map PublishedRecord.id))) =
        current.filter
          (fun e => !(idMem (entryIdOf e) (recs.map PublishedRecord.id))) := by
      rw [List.filter_filter]
      apply List.filter_congr
      intro e _
      rw [Bool.and_self]
    have hnew : (recs.map recordToJson).filter
        (fun e => !(idMem (entryIdOf e) (recs.map PublishedRecord.id))) = [] := by
      rw [List.filter_eq_nil_iff]
      intro e he
      rw [List.mem_map] at he
      obtain ⟨q, hq, rfl⟩ := he
      show ¬ ((!(idMem (entryIdOf (recordToJson q))
        (recs.map PublishedRecord.id))) = true)
      rw [entryIdOf_recordToJson]
      have htrue : idMem q.id (recs.map PublishedRecord.id) = true := by
        rw [idMem]
        exact List.any_eq_true.mpr
          ⟨q.id, List.mem_map_of_mem PublishedRecord.id hq,
           pyEq_refl q.id (hwf q hq)⟩
      rw [htrue]
      simp
    rw [hold, hnew, List.append_nil]

/-- Witness for the amended C1: one old entry replaced, one preserved. -/
theorem c1_witness :
    (registryPhase "registry"
        (some (.arr [plantsOldEntry, .obj [("id", .str "other")]]))
        [plantsRecord]).1 =
      .written ([plantsOldEntry, .obj [("id", .str "other")]].filter
          (fun e => !(idMem (entryIdOf e)
            ([plantsRecord].map PublishedRecord.id))) ++
        [plantsRecord].map recordToJson) ∧
    ([plantsOldEntry, .obj [("id", .str "other")]].filter
        (fun e => !(idMem (entryIdOf e)
          ([plantsRecord].map PublishedRecord.id))) ++
      [plantsRecord].map recordToJson).filter
      (fun e => pyEq (entryIdOf e) plantsRecord.id) =
    [recordToJson plantsRecord] :=
  ⟨(c1_registry_upsert "registry" [plantsOldEntry, .obj [("id", .str "other")]]
      [plantsRecord] (by decide) (by decide) (by decide)
      (by simp [List.pairwise_singleton])).1,
   (c1_registry_upsert "registry" [plantsOldEntry, .obj [("id", .str "other")]]
      [plantsRecord] (by decide) (by decide) (by decide)
      (by simp [List.pairwise_singleton])).2.1 plantsRecord
      (by decide)⟩

/-! ### Claim C8 (confirmed) -/

/-- Claim C8: two records published in the same run with the same logical id
both survive the merge — only pre-existing entries whose id equals that id
under Python == are removed, both new records are appended, and the written
registry holds exactly those two entries for that id, in publication order
with the later one last. -/
theorem c8_duplicate_ids (current : List JValue) (r1 r2 : PublishedRecord)
    (hobj : ∀ e ∈ current, (pyGetId e).isSome) (hid : r1.id = r2.id)
    (hwf : wfJ r1.id = true) :
    mergeRegistry current [r1, r2] =
      some (current.filter (fun e => !(pyEq (entryIdOf e) r1.id)) ++
            [recordToJson r1, recordToJson r2]) ∧
    (current.filter (fun e => !(pyEq (entryIdOf e) r1.id)) ++
      [recordToJson r1, recordToJson r2]).filter
      (fun e => pyEq (entryIdOf e) r1.id) =
    [recordToJson r1, recordToJson r2] := by
  have hconv : ∀ e : JValue,
      idMem (entryIdOf e) ([r1, r2].map PublishedRecord.id) =
        pyEq (entryIdOf e) r1.id := by
    intro e
    show ([r1.id, r2.id].any fun nid => pyEq (entryIdOf e) nid) =
      pyEq (entryIdOf e) r1.id
    rw [← hid]
    simp [List.any_cons]
  constructor
  · rw [mergeRegistry_eq current [r1, r2] hobj]
    have hfil : current.filter
        (fun e => !(idMem (entryIdOf e) ([r1, r2].map PublishedRecord.id))) =
        current.filter (fun e => !(pyEq (entryIdOf e) r1.id)) := by
      apply List.filter_congr
      intro e _
      rw [hconv e]
    rw [hfil]
    rfl
  · rw [List.filter_append]
    have hold : (current.filter (fun e => !(pyEq (entryIdOf e) r1.id))).filter
        (fun e => pyEq (entryIdOf e) r1.id) = [] := by
      rw [List.filter_eq_nil_iff]
      intro e he
      rw [List.mem_filter] at he
      have h2 := he.2
      rw [Bool.not_eq_true'] at h2
      simp [h2]
    have h1 : pyEq (entryIdOf (recordToJson r1)) r1.id = true := by
      rw [entryIdOf_recordToJson]
      exact pyEq_refl r1.id hwf
    have h2 : pyEq (entryIdOf (recordToJson r2)) r1.id = true := by
      rw [entryIdOf_recordToJson, ← hid]
      exact pyEq_refl r1.id hwf
    have hnew : ([recordToJson r1, recordToJson r2] : List JValue).filter
        (fun e => pyEq (entryIdOf e) r1.id) =
        [recordToJson r1, recordToJson r2] := by
      simp [List.filter_cons, h1, h2]
    rw [hold, hnew, List.nil_append]

/-- Witness for C8: two same-id records in one run. -/
theorem c8_witness :
    mergeRegistry [.obj [("id", .str "d"), ("x", .int 7)]]
        [⟨.str "d", .str "A", "u1"⟩, ⟨.str "d", .str "B", "u2"⟩] =
      some (([.obj [("id", .str "d"), ("x", .int 7)]] : List JValue).filter
          (fun e => !(pyEq (entryIdOf e) ((⟨.str "d", .str "A", "u1"⟩ :
            PublishedRecord)).id)) ++
        [recordToJson ⟨.str "d", .str "A", "u1"⟩,
         recordToJson ⟨.str "d", .str "B", "u2"⟩]) :=
  (c8_duplicate_ids [.obj [("id", .str "d"), ("x", .int 7)]]
    ⟨.str "d", .str "A", "u1"⟩ ⟨.str "d", .str "B", "u2"⟩
    (by decide) (by decide) (by decide)).1

/-! ### Claim C9 (corrected) -/

/-- From an entry that is an object without an id field, the filter of line
193 reads the Python None default, embedded as null. -/
theorem entryIdOf_of_lacksId (e : JValue) (h : lacksId e = true) :
    entryIdOf e = .null := by
  cases e with
  | obj fs =>
      simp only [lacksId, Option.isNone_iff_eq_none] at h
      simp [entryIdOf, pyGetId, dictGet, h]
  | null => cases h
  | bool b => cases h
  | int n => cases h
  | str s => cases h
  | arr xs => cases h

/-- Counterexample to claim C9 as stated: the new ids are not always
strings.  A content id field holding null gives the published record a None
logical id, which compares equal to the missing id of an id-less registry
entry, so that entry is dropped by the merge rather than retained. -/
theorem c9_counterexample :
    (npointRun "reg" (some (.arr [.obj [("title", .str "orphan")]]))
        [⟨"a.json", true, some (.obj [("id", .null)]), true,
          some "https://www.npoint.io/docs/zzz"⟩]).outcome =
      RegOutcome.written
        [.obj [("id", .null), ("title", .str "a.json"),
               ("url", .str "https://api.npoint.io/zzz")]] ∧
    lacksId (.obj [("title", .str "orphan")]) = true ∧
    (.obj [("title", .str "orphan")] : JValue) ∉
      ([.obj [("id", .null), ("title", .str "a.json"),
              ("url", .str "https://api.npoint.io/zzz")]] : List JValue) := by
  decide

/-- Claim C9 as amended: in any merge that completes, every fetched entry
lacking an id key is retained verbatim and in order, provided no new record
has a null logical id (in particular whenever each content id field present
is a string, as the on-disk format prescribes). -/
theorem c9_lacking_id_preserved (current : List JValue)
    (recs : List PublishedRecord) (m : List JValue)
    (hnn : ∀ r ∈ recs, ¬ r.id = JValue.null)
    (hm : mergeRegistry current recs = some m) :
    m.filter lacksId = current.filter lacksId := by
  simp only [mergeRegistry, Option.bind_eq_bind, Option.pure_def,
    Option.bind_eq_some, Option.some_inj] at hm
  obtain ⟨filtered, hf, hmm⟩ := hm
  have hobj := filterRegistry_isSome (recs.map PublishedRecord.id) current
    filtered hf
  rw [filterRegistry_eq (recs.map PublishedRecord.id) current hobj] at hf
  have hfe : filtered = current.filter
      (fun e => !(idMem (entryIdOf e) (recs.map PublishedRecord.id))) :=
    (Option.some_inj.mp hf).symm
  subst hfe
  subst hmm
  rw [List.filter_append]
  have hnew : (recs.map recordToJson).filter lacksId = [] := by
    rw [List.filter_eq_nil_iff]
    intro e he
    rw [List.mem_map] at he
    obtain ⟨q, _, rfl⟩ := he
    rw [lacksId_recordToJson]
    exact Bool.false_ne_true
  have hold : (current.filter
      (fun e => !(idMem (entryIdOf e) (recs.map PublishedRecord.id)))).filter
      lacksId = current.filter lacksId := by
    rw [List.filter_comm]
    have : (current.filter lacksId).filter
        (fun e => !(idMem (entryIdOf e) (recs.map PublishedRecord.id))) =
        (current.filter lacksId).filter (fun _ => true) := by
      apply List.filter_congr
      intro e he
      rw [List.mem_filter] at he
      have hide := entryIdOf_of_lacksId e he.2
      show (!(idMem (entryIdOf e) (recs.map PublishedRecord.id))) = true
      rw [hide]
      have hmem : idMem JValue.null (recs.map PublishedRecord.id) = false := by
        rw [idMem]
        rw [List.any_eq_false]
        intro x hx
        rw [List.mem_map] at hx
        obtain ⟨r, hr, rfl⟩ := hx
        simp [pyEq_null_not_null r.id (hnn r hr)]
      rw [hmem]
      rfl
    rw [this, List.filter_true]
  rw [hnew, hold, List.append_nil]

/-- Witness for the amended C9: an id-less entry survives a merge whose new
record has a string id. -/
theorem c9_witness :
    ([.obj [("title", .str "orphan")], recordToJson sampleRecord] :
        List JValue).filter lacksId =
      ([.obj [("title", .str "orphan")]] : List JValue).filter lacksId :=
  c9_lacking_id_preserved [.obj [("title", .str "orphan")]] [sampleRecord]
    [.obj [("title", .str "orphan")], recordToJson sampleRecord]
    (by decide) (by decide)

/-! ### Claim C4 (confirmed) -/

/-- Claim C4: for an artifact whose JSON content is an object, the published
record takes its title from the title field when present and from the base
filename otherwise, and its logical id from the id field when present and
from the filename stem otherwise. -/
theorem c4_title_id_derivation (key : Option JValue) (f : FileSpec)
    (fields : List (String × JValue)) (u : String)
    (hdisk : f.onDisk = true) (hparse : f.parsed = some (.obj fields))
    (hui : f.uiUrl = some u) :
    processFile key f =
      some (some ⟨idKeyOf fields f.path, titleOf fields f.path,
              apiUrl (lastSegment u)⟩,
            some (idKeyOf fields f.path), publishTrace f (.obj fields)) ∧
    (∀ t, jfind "title" fields = some t → titleOf fields f.path = t) ∧
    (jfind "title" fields = none →
      titleOf fields f.path = .str (basename f.path)) ∧
    (∀ i, jfind "id" fields = some i → idKeyOf fields f.path = i) ∧
    (jfind "id" fields = none →
      idKeyOf fields f.path = .str (splitextStem (basename f.path))) := by
  refine ⟨?_, ?_, ?_, ?_, ?_⟩
  · simp [processFile, hdisk, hparse, hui]
  · intro t ht; simp [titleOf, dictGet, ht]
  · intro ht; simp [titleOf, dictGet, ht]
  · intro i hi; simp [idKeyOf, dictGet, hi]
  · intro hi; simp [idKeyOf, dictGet, hi]

/-- Witness for C4 at the plants scenario file. -/
theorem c4_witness :
    titleOf plantsFields plantsFile.path = .str "Plants Unit" ∧
    idKeyOf plantsFields plantsFile.path = .str "grade-5-plants" ∧
    processFile none plantsFile =
      some (some ⟨idKeyOf plantsFields plantsFile.path,
              titleOf plantsFields plantsFile.path,
              apiUrl (lastSegment "https://www.npoint.io/docs/abc123")⟩,
            some (idKeyOf plantsFields plantsFile.path),
            publishTrace plantsFile (.obj plantsFields)) :=
  ⟨(c4_title_id_derivation none plantsFile plantsFields
      "https://www.npoint.io/docs/abc123" (by decide) (by decide)
      (by decide)).2.1 (.str "Plants Unit") (by decide),
   (c4_title_id_derivation none plantsFile plantsFields
      "https://www.npoint.io/docs/abc123" (by decide) (by decide)
      (by decide)).2.2.2.1 (.str "grade-5-plants") (by decide),
   (c4_title_id_derivation none plantsFile plantsFields
      "https://www.npoint.io/docs/abc123" (by decide) (by decide)
      (by decide)).1⟩

/-! ### Claim C7 (confirmed) -/

/-- Claim C7: for every successfully saved artifact the generated identifier
is the final path segment of the browser location after save and the public
URL is the public read host followed by that identifier; concretely, the
grade-5-plants content saved under identifier abc123 yields the expected
record, and a prior registry entry with that id is replaced by it. -/
theorem c7_identifier_capture (key : Option JValue) (f : FileSpec)
    (fields : List (String × JValue)) (u : String)
    (hdisk : f.onDisk = true) (hparse : f.parsed = some (.obj fields))
    (hui : f.uiUrl = some u) :
    (processFile key f =
       some (some ⟨idKeyOf fields f.path, titleOf fields f.path,
               apiUrl (lastSegment u)⟩,
             some (idKeyOf fields f.path), publishTrace f (.obj fields)) ∧
     apiUrl (lastSegment u) = "https://api.npoint.io/" ++ lastSegment u) ∧
    (processFile none plantsFile =
       some (some plantsRecord, some (.str "grade-5-plants"),
             publishTrace plantsFile plantsContent) ∧
     plantsRecord = ⟨.str "grade-5-plants", .str "Plants Unit",
       "https://api.npoint.io/abc123"⟩ ∧
     mergeRegistry [plantsOldEntry] [plantsRecord] =
       some [recordToJson plantsRecord]) := by
  refine ⟨⟨?_, rfl⟩, by decide, by decide, by decide⟩
  simp [processFile, hdisk, hparse, hui]

/-- Witness for C7 at the plants scenario. -/
theorem c7_witness :
    processFile none plantsFile =
      some (some plantsRecord, some (.str "grade-5-plants"),
            publishTrace plantsFile plantsContent) ∧
    apiUrl (lastSegment "https://www.npoint.io/docs/abc123") =
      "https://api.npoint.io/" ++ lastSegment "https://www.npoint.io/docs/abc123" :=
  ⟨(c7_identifier_capture none plantsFile plantsFields
      "https://www.npoint.io/docs/abc123" (by decide) (by decide)
      (by decide)).2.1,
   (c7_identifier_capture none plantsFile plantsFields
      "https://www.npoint.io/docs/abc123" (by decide) (by decide)
      (by decide)).1.2⟩

/-! ### Round trip of serialization: values in the image of json.load

A Python dict never holds the same key twice, so any value json.load can
return has pairwise-distinct keys in every object, recursively.  The
serializer is injectively invertible exactly on those values. -/

theorem foldl_insertPair (ps : List (String × JValue)) :
    ∀ acc : List (String × JValue),
    (∀ p ∈ ps, ∀ q ∈ acc, ¬ q.1 = p.1) →
    (ps.map Prod.fst).Nodup →
    ps.foldl insertPair acc = acc ++ ps := by
  induction ps with
  | nil => intro acc _ _; simp
  | cons p t ih =>
      intro acc hdisj hnd
      rw [List.map_cons, List.nodup_cons] at hnd
      have hstep : insertPair acc p = acc ++ [p] := by
        rw [insertPair, if_neg]
        intro hany
        rw [List.any_eq_true] at hany
        obtain ⟨q, hq, hq1⟩ := hany
        exact hdisj p (by simp) q hq (by
          exact decide_eq_true_eq.mp hq1)
      rw [List.foldl_cons, hstep,
        ih (acc ++ [p]) ?_ hnd.2, List.append_assoc]
      rfl
      intro x hx q hq
      rw [List.mem_append] at hq
      rcases hq with hq | hq
      · exact hdisj x (by simp [hx]) q hq
      · rw [List.mem_singleton] at hq
        subst hq
        intro hc
        exact hnd.1 (hc ▸ List.mem_map_of_mem Prod.fst hx)

/-- Building a dict from members with pairwise distinct keys keeps them
as they are. -/
theorem dictOf_nodup (ps : List (String × JValue))
    (hnd : (ps.map Prod.fst).Nodup) : dictOf ps = ps := by
  rw [dictOf, foldl_insertPair ps [] (by simp) hnd]
  rfl

/-! ### Character and digit facts -/

theorem charToNat_valid (c : Char) :
    c.toNat < 55296 ∨ (57343 < c.toNat ∧ c.toNat < 1114112) := c.valid

theorem toNat_ofNat_valid (n : Nat) (h : n.isValidChar) :
    (Char.ofNat n).toNat = n := by
  rw [Char.ofNat, dif_pos h]
  rfl

theorem charToNat_inj (c d : Char) (h : c.toNat = d.toNat) : c = d := by
  rw [← Char.ofNat_toNat c, ← Char.ofNat_toNat d, h]

theorem toNat_digitChar (k : Nat) (hk : k ≤ 9) : (digitChar k).toNat = 48 + k :=
  toNat_ofNat_valid (48 + k) (Or.inl (by omega))

theorem natChars_digits : ∀ n : Nat, ∀ c ∈ natChars n,
    48 ≤ c.toNat ∧ c.toNat ≤ 57 := by
  intro n
  induction n using Nat.strong_induction_on with
  | _ n ih =>
      intro c hc
      rw [natChars_eq] at hc
      by_cases hn : n < 10
      · rw [if_pos hn, List.mem_singleton] at hc
        subst hc
        rw [toNat_digitChar n (by omega)]
        omega
      · rw [if_neg hn, List.mem_append] at hc
        rcases hc with hc | hc
        · exact ih (n / 10) (Nat.div_lt_self (by omega) (by omega)) c hc
        · rw [List.mem_singleton] at hc
          subst hc
          rw [toNat_digitChar (n % 10) (by omega)]
          omega

theorem natChars_head : ∀ n : Nat, ∃ c t, natChars n = c :: t ∧
    48 ≤ c.toNat ∧ c.toNat ≤ 57 ∧ (1 ≤ n → c.toNat ≠ 48) := by
  intro n
  induction n using Nat.strong_induction_on with
  | _ n ih =>
      rw [natChars_eq]
      by_cases hn : n < 10
      · refine ⟨digitChar n, [], by rw [if_pos hn], ?_, ?_, ?_⟩ <;>
          rw [toNat_digitChar n (by omega)] <;> omega
      · obtain ⟨c, t, hct, h1, h2, h3⟩ :=
          ih (n / 10) (Nat.div_lt_self (by omega) (by omega))
        exact ⟨c, t ++ [digitChar (n % 10)],
          by rw [if_neg hn, hct]; rfl, h1, h2,
          fun _ => h3 (by omega)⟩

theorem intChars_head : ∀ n : Int, ∃ c t, intChars n = c :: t ∧
    (c.toNat = 45 ∨ (48 ≤ c.toNat ∧ c.toNat ≤ 57)) := by
  intro n
  rw [intChars]
  by_cases hn : n < 0
  · exact ⟨'-', natChars n.natAbs, by rw [if_pos hn], Or.inl rfl⟩
  · obtain ⟨c, t, hct, h1, h2, _⟩ := natChars_head n.toNat
    exact ⟨c, t, by rw [if_neg hn, hct], Or.inr ⟨h1, h2⟩⟩

/-- The continuation does not begin with a decimal digit, so maximal-munch
number parsing stops exactly at its start. -/
def noDigitHead : List Char → Prop
  | [] => True
  | c :: _ => c.toNat < 48 ∨ 57 < c.toNat

theorem takeDigits_append : ∀ ds rest : List Char,
    (∀ c ∈ ds, 48 ≤ c.toNat ∧ c.toNat ≤ 57) → noDigitHead rest →
    takeDigits (ds ++ rest) = (ds, rest) := by
  intro ds
  induction ds with
  | nil =>
      intro rest _ hrest
      cases rest with
      | nil => rfl
      | cons c t =>
          rw [List.nil_append, takeDigits, if_neg]
          rcases hrest with h | h <;> omega
  | cons c ds ih =>
      intro rest hds hrest
      rw [List.cons_append, takeDigits,
        if_pos (hds c (by simp)), ih rest (fun x hx => hds x (by simp [hx])) hrest]

theorem foldl_digits_natChars : ∀ n a : Nat,
    List.foldl (fun a c => a * 10 + (c.toNat - 48)) a (natChars n) =
      a * 10 ^ (natChars n).length + n := by
  intro n
  induction n using Nat.strong_induction_on with
  | _ n ih =>
      intro a
      rw [natChars_eq]
      by_cases hn : n < 10
      · rw [if_pos hn]
        simp only [List.foldl_cons, List.foldl_nil, List.length_singleton,
          pow_one, toNat_digitChar n (by omega)]
        omega
      · rw [if_neg hn, List.foldl_append,
          ih (n / 10) (Nat.div_lt_self (by omega) (by omega)) a]
        simp only [List.foldl_cons, List.foldl_nil, List.length_append,
          List.length_singleton, pow_succ, toNat_digitChar (n % 10) (by omega)]
        generalize (10 : Nat) ^ (natChars (n / 10)).length = P
        rw [← mul_assoc]
        generalize a * P = Q
        omega

theorem digitsToNat_natChars (n : Nat) : digitsToNat (natChars n) = n := by
  rw [digitsToNat, foldl_digits_natChars n 0]
  omega

theorem parseNat_natChars : ∀ (n : Nat) (rest : List Char),
    noDigitHead rest → parseNat (natChars n ++ rest) = some (n, rest) := by
  intro n rest hrest
  by_cases hz : n = 0
  · subst hz
    have h0 : natChars 0 = ['0'] := by rw [natChars_eq]; rfl
    rw [h0, List.cons_append, List.nil_append, parseNat, if_pos rfl]
  · obtain ⟨c, t, hct, h1, h2, h3⟩ := natChars_head n
    have hc0 : ¬ c = '0' := fun hc =>
      (h3 (by omega)) (by rw [hc]; rfl)
    rw [hct, List.cons_append, parseNat, if_neg hc0,
      if_pos ⟨h1, h2⟩,
      takeDigits_append t rest
        (fun x hx => natChars_digits n x (by rw [hct]; simp [hx])) hrest]
    show some (digitsToNat (c :: t), rest) = some (n, rest)
    rw [← hct, digitsToNat_natChars]

theorem parseInt_intChars : ∀ (n : Int) (rest : List Char),
    noDigitHead rest → parseInt (intChars n ++ rest) = some (n, rest) := by
  intro n rest hrest
  rw [intChars]
  by_cases hn : n < 0
  · rw [if_pos hn, List.cons_append, parseInt, if_pos rfl,
      parseNat_natChars n.natAbs rest hrest]
    show some (-(n.natAbs : Int), rest) = some (n, rest)
    have h : -(n.natAbs : Int) = n := by omega
    rw [h]
  · rw [if_neg hn]
    obtain ⟨c, t, hct, h1, h2, _⟩ := natChars_head n.toNat
    have hcm : ¬ c = '-' := by
      intro hc
      rw [hc] at h1
      have h45 : ('-').toNat = 45 := rfl
      omega
    rw [hct, List.cons_append, parseInt, if_neg hcm, ← List.cons_append,
      ← hct, parseNat_natChars n.toNat rest hrest]
    show some ((n.toNat : Int), rest) = some (n, rest)
    have h : ((n.toNat : Int)) = n := by omega
    rw [h]

/-! ### Round trip of string escaping -/

theorem hexVal_hexDigit : ∀ k : Nat, k < 16 → hexVal (hexDigit k) = some k := by
  decide

theorem hex4Val_hexDigits (n : Nat) (h : n < 65536) :
    hex4Val (hexDigit (n / 4096 % 16)) (hexDigit (n / 256 % 16))
      (hexDigit (n / 16 % 16)) (hexDigit (n % 16)) = some n := by
  rw [hex4Val, hexVal_hexDigit _ (by omega), hexVal_hexDigit _ (by omega),
    hexVal_hexDigit _ (by omega), hexVal_hexDigit _ (by omega)]
  show some ((((n / 4096 % 16) * 16 + n / 256 % 16) * 16 + n / 16 % 16) * 16 +
    n % 16) = some n
  congr 1
  omega

theorem takeHex4_hexDigits (n : Nat) (h : n < 65536) (rest : List Char) :
    takeHex4 (hexDigit (n / 4096 % 16) :: hexDigit (n / 256 % 16) ::
      hexDigit (n / 16 % 16) :: hexDigit (n % 16) :: rest) = some (n, rest) := by
  rw [takeHex4, hex4Val_hexDigits n h]

theorem takeLowSurrogate_hexDigits (m : Nat) (hm1 : 56320 ≤ m)
    (hm2 : m < 57344) (rest : List Char) :
    takeLowSurrogate ('\\' :: 'u' :: hexDigit (m / 4096 % 16) ::
      hexDigit (m / 256 % 16) :: hexDigit (m / 16 % 16) ::
      hexDigit (m % 16) :: rest) = some (m, rest) := by
  rw [takeLowSurrogate, if_pos rfl, if_pos rfl,
    takeHex4_hexDigits m (by omega) rest]
  simp [hm1, hm2]

theorem takeEscape_short (e c : Char) (he : escCode e = some c)
    (hu : ¬ e = 'u') (tail : List Char) :
    takeEscape (e :: tail) = some (c, tail) := by
  rw [takeEscape, if_neg hu, he]

theorem takeEscape_u_single (n : Nat) (h1 : n < 65536)
    (hval : n < 55296 ∨ 57344 ≤ n) (tail : List Char) :
    takeEscape ('u' :: hexDigit (n / 4096 % 16) :: hexDigit (n / 256 % 16) ::
      hexDigit (n / 16 % 16) :: hexDigit (n % 16) :: tail) =
    some (Char.ofNat n, tail) := by
  rw [takeEscape, if_pos rfl, takeHex4_hexDigits n h1 tail]
  rcases hval with hv | hv
  · simp [hv]
  · have ha : ¬ n < 55296 := by omega
    have hb : ¬ n < 56320 := by omega
    have hc : ¬ n < 57344 := by omega
    simp [ha, hb, hc]

theorem takeEscape_u_pair (hi lo : Nat) (hhi1 : 55296 ≤ hi)
    (hhi2 : hi < 56320) (hlo1 : 56320 ≤ lo) (hlo2 : lo < 57344)
    (tail : List Char) :
    takeEscape ('u' :: hexDigit (hi / 4096 % 16) :: hexDigit (hi / 256 % 16) ::
      hexDigit (hi / 16 % 16) :: hexDigit (hi % 16) :: '\\' :: 'u' ::
      hexDigit (lo / 4096 % 16) :: hexDigit (lo / 256 % 16) ::
      hexDigit (lo / 16 % 16) :: hexDigit (lo % 16) :: tail) =
    some (Char.ofNat (65536 + (hi - 55296) * 1024 + (lo - 56320)), tail) := by
  rw [takeEscape, if_pos rfl, takeHex4_hexDigits hi (by omega)]
  have ha : ¬ hi < 55296 := by omega
  simp only [ha, if_false, hhi2, if_true]
  rw [takeLowSurrogate_hexDigits lo hlo1 hlo2 tail]

theorem parseStrBody_quote (f : Nat) (rest : List Char) :
    parseStrBody (f + 1) ('"' :: rest) = some ([], rest) := by
  rw [parseStrBody, if_pos rfl]

theorem parseStrBody_backslash (f : Nat) (rest rest2 : List Char) (c2 : Char)
    (h : takeEscape rest = some (c2, rest2)) :
    parseStrBody (f + 1) ('\\' :: rest) =
      match parseStrBody f rest2 with
      | some (s, r) => some (c2 :: s, r)
      | none => none := by
  rw [parseStrBody, if_neg (by decide), if_pos rfl, h]

theorem parseStrBody_lit (f : Nat) (c : Char) (rest : List Char)
    (h1 : ¬ c = '"') (h2 : ¬ c = '\\') (h3 : ¬ c.toNat < 32) :
    parseStrBody (f + 1) (c :: rest) =
      match parseStrBody f rest with
      | some (s, r) => some (c :: s, r)
      | none => none := by
  rw [parseStrBody, if_neg h1, if_neg h2, if_neg h3]

theorem parse_escapeChars : ∀ (s : List Char) (f : Nat) (rest : List Char),
    s.length < f →
    parseStrBody f (escapeChars s ++ '"' :: rest) = some (s, rest) := by
  intro s
  induction s with
  | nil =>
      intro f rest hf
      match f, hf with
      | f + 1, _ =>
        rw [escapeChars, List.nil_append, parseStrBody_quote]
  | cons c s ih =>
      intro f rest hf
      match f, hf with
      | f + 1, hf2 =>
      have hlen : s.length < f := by
        rw [List.length_cons] at hf2
        omega
      rw [escapeChars, List.append_assoc, escChar]
      by_cases h34 : c.toNat = 34
      · rw [if_pos h34]
        have hc : c = '"' := charToNat_inj c '"' (by rw [h34]; rfl)
        rw [List.cons_append, List.cons_append, List.nil_append,
          parseStrBody_backslash f _ _ '"'
            (takeEscape_short '"' '"' rfl (by decide) _),
          ih f rest hlen, hc]
      rw [if_neg h34]
      by_cases h92 : c.toNat = 92
      · rw [if_pos h92]
        have hc : c = '\\' := charToNat_inj c '\\' (by rw [h92]; rfl)
        rw [List.cons_append, List.cons_append, List.nil_append,
          parseStrBody_backslash f _ _ '\\'
            (takeEscape_short '\\' '\\' rfl (by decide) _),
          ih f rest hlen, hc]
      rw [if_neg h92]
      by_cases h10 : c.toNat = 10
      · rw [if_pos h10]
        have hc : c = '\n' := charToNat_inj c '\n' (by rw [h10]; rfl)
        rw [List.cons_append, List.cons_append, List.nil_append,
          parseStrBody_backslash f _ _ '\n'
            (takeEscape_short 'n' '\n' rfl (by decide) _),
          ih f rest hlen, hc]
      rw [if_neg h10]
      by_cases h9 : c.toNat = 9
      · rw [if_pos h9]
        have hc : c = '\t' := charToNat_inj c '\t' (by rw [h9]; rfl)
        rw [List.cons_append, List.cons_append, List.nil_append,
          parseStrBody_backslash f _ _ '\t'
            (takeEscape_short 't' '\t' rfl (by decide) _),
          ih f rest hlen, hc]
      rw [if_neg h9]
      by_cases h13 : c.toNat = 13
      · rw [if_pos h13]
        have hc : c = '\r' := charToNat_inj c '\r' (by rw [h13]; rfl)
        rw [List.cons_append, List.cons_append, List.nil_append,
          parseStrBody_backslash f _ _ '\r'
            (takeEscape_short 'r' '\r' rfl (by decide) _),
          ih f rest hlen, hc]
      rw [if_neg h13]
      by_cases h8 : c.toNat = 8
      · rw [if_pos h8]
        have hc : c = Char.ofNat 8 := charToNat_inj c (Char.ofNat 8) (by
          rw [h8, toNat_ofNat_valid 8 (Or.inl (by omega))])
        rw [List.cons_append, List.cons_append, List.nil_append,
          parseStrBody_backslash f _ _ (Char.ofNat 8)
            (takeEscape_short 'b' (Char.ofNat 8) rfl (by decide) _),
          ih f rest hlen, hc]
      rw [if_neg h8]
      by_cases h12 : c.toNat = 12
      · rw [if_pos h12]
        have hc : c = Char.ofNat 12 := charToNat_inj c (Char.ofNat 12) (by
          rw [h12, toNat_ofNat_valid 12 (Or.inl (by omega))])
        rw [List.cons_append, List.cons_append, List.nil_append,
          parseStrBody_backslash f _ _ (Char.ofNat 12)
            (takeEscape_short 'f' (Char.ofNat 12) rfl (by decide) _),
          ih f rest hlen, hc]
      rw [if_neg h12]
      by_cases hrange : c.toNat < 32 ∨ 126 < c.toNat
      · rw [if_pos hrange]
        by_cases hbmp : c.toNat < 65536
        · rw [if_pos hbmp, hex4]
          have hval : c.toNat < 55296 ∨ 57344 ≤ c.toNat := by
            rcases charToNat_valid c with hv | hv <;> omega
          simp only [List.cons_append, List.nil_append, List.append_assoc]
          rw [parseStrBody_backslash f _ _ (Char.ofNat c.toNat)
              (takeEscape_u_single c.toNat hbmp hval _),
            ih f rest hlen, Char.ofNat_toNat]
        · rw [if_neg hbmp, hex4, hex4]
          have hup : c.toNat < 1114112 := by
            rcases charToNat_valid c with hv | hv <;> omega
          have harith : 65536 + (55296 + (c.toNat - 65536) / 1024 - 55296) *
              1024 + (56320 + (c.toNat - 65536) % 1024 - 56320) = c.toNat := by
            have hd := Nat.div_add_mod (c.toNat - 65536) 1024
            omega
          simp only [List.cons_append, List.nil_append, List.append_assoc]
          rw [parseStrBody_backslash f _ _
              (Char.ofNat (65536 +
                (55296 + (c.toNat - 65536) / 1024 - 55296) * 1024 +
                (56320 + (c.toNat - 65536) % 1024 - 56320)))
              (takeEscape_u_pair (55296 + (c.toNat - 65536) / 1024)
                (56320 + (c.toNat - 65536) % 1024)
                (by omega) (by omega) (by omega) (by omega) _),
            ih f rest hlen, harith, Char.ofNat_toNat]
      · rw [if_neg hrange]
        rw [List.cons_append, List.nil_append,
          parseStrBody_lit f c _
            (fun hc => h34 (by rw [hc]; rfl))
            (fun hc => h92 (by rw [hc]; rfl))
            (by omega),
          ih f rest hlen]

/-! ### Whitespace and emission shape -/

theorem spaces_length : ∀ n : Nat, (spaces n).length = n := by
  intro n
  induction n with
  | zero => rfl
  | succ n ih => rw [spaces, List.length_cons, ih]

theorem skipWs_notWs (c : Char) (cs : List Char)
    (h : ¬ (c = ' ' ∨ c = '\t' ∨ c = '\n' ∨ c = '\r')) :
    skipWs (c :: cs) = c :: cs := by
  rw [skipWs, if_neg h]

theorem skipWs_nl (cs : List Char) : skipWs ('\n' :: cs) = skipWs cs := by
  rw [skipWs, if_pos (by right; right; left; rfl)]

theorem skipWs_space (cs : List Char) : skipWs (' ' :: cs) = skipWs cs := by
  rw [skipWs, if_pos (by left; rfl)]

theorem skipWs_spaces : ∀ (n : Nat) (cs : List Char),
    skipWs (spaces n ++ cs) = skipWs cs := by
  intro n
  induction n with
  | zero => intro cs; rfl
  | succ n ih =>
      intro cs
      rw [spaces, List.cons_append, skipWs_space, ih]

/-- The first character of any emitted value: a letter of null, true or
false, a quote, an opening bracket or brace, a minus, or a digit. -/
theorem emit_head : ∀ (v : JValue) (d : Nat), ∃ c t, emit d v = c :: t ∧
    (c.toNat = 110 ∨ c.toNat = 116 ∨ c.toNat = 102 ∨ c.toNat = 34 ∨
     c.toNat = 91 ∨ c.toNat = 123 ∨ c.toNat = 45 ∨
     (48 ≤ c.toNat ∧ c.toNat ≤ 57)) := by
  intro v d
  cases v with
  | null => exact ⟨'n', _, rfl, by left; rfl⟩
  | bool b =>
      cases b with
      | true => exact ⟨'t', _, rfl, by right; left; rfl⟩
      | false => exact ⟨'f', _, rfl, by right; right; left; rfl⟩
  | int n =>
      obtain ⟨c, t, hct, hc⟩ := intChars_head n
      exact ⟨c, t, by rw [emit, hct], by tauto⟩
  | str s => exact ⟨'"', _, rfl, by right; right; right; left; rfl⟩
  | arr xs =>
      cases xs with
      | nil => exact ⟨'[', _, rfl, by right; right; right; right; left; rfl⟩
      | cons x t =>
          exact ⟨'[', _, rfl, by right; right; right; right; left; rfl⟩
  | obj ps =>
      cases ps with
      | nil =>
          exact ⟨'{', _, rfl, by right; right; right; right; right; left; rfl⟩
      | cons p t =>
          obtain ⟨k, v⟩ := p
          exact ⟨'{', _, rfl, by right; right; right; right; right; left; rfl⟩

/-- An emitted value never begins with whitespace. -/
theorem skipWs_emit (v : JValue) (d : Nat) (rest : List Char) :
    skipWs (emit d v ++ rest) = emit d v ++ rest := by
  obtain ⟨c, t, hct, hc⟩ := emit_head v d
  rw [hct, List.cons_append]
  apply skipWs_notWs
  intro hor
  have h32 : (' ').toNat = 32 := rfl
  have h9 : ('\t').toNat = 9 := rfl
  have h10 : ('\n').toNat = 10 := rfl
  have h13 : ('\r').toNat = 13 := rfl
  rcases hor with h | h | h | h <;>
    (rw [h] at hc; revert hc; simp [h32, h9, h10, h13])

/-- An emitted value never begins with a digit unless it is a number, and
then maximal-munch stops where the emission stopped; what matters for the
surrounding grammar is only the head of the continuation, captured here. -/
theorem emit_size_le : ∀ n : Nat,
    (∀ v d, jsize v ≤ n → jsize v ≤ (emit d v).length) ∧
    (∀ xs d, jsizeList xs ≤ n → jsizeList xs ≤ (emitItems d xs).length + 2) ∧
    (∀ ps d, jsizePairs ps ≤ n →
      jsizePairs ps ≤ (emitPairs d ps).length + 2) := by
  intro n
  induction n using Nat.strong_induction_on with
  | _ n ih =>
  refine ⟨?_, ?_, ?_⟩
  · intro v d hv
    match v with
    | .null => simp [jsize, emit]
    | .bool true => simp [jsize, emit]
    | .bool false => simp [jsize, emit]
    | .int m =>
        obtain ⟨c, t, hct, _⟩ := intChars_head m
        rw [jsize, emit, hct]
        simp
    | .str s => simp [jsize, emit]
    | .arr [] => simp [jsize, jsizeList, emit]
    | .arr (x :: t) =>
        have hn : 0 < n := by
          have := hv
          simp [jsize, jsizeList] at this
          have := jsize_pos x
          omega
        have h1 : jsize x ≤ n - 1 := by
          simp [jsize, jsizeList] at hv
          have := jsizeList_pos t
          omega
        have h2 : jsizeList t ≤ n - 1 := by
          simp [jsize, jsizeList] at hv
          have := jsize_pos x
          omega
        have e1 := ((ih (n - 1) (by omega)).1) x (d + 2) h1
        have e2 := ((ih (n - 1) (by omega)).2.1) t (d + 2) h2
        rw [jsize, jsizeList, emit]
        simp only [List.length_cons, List.length_append, spaces_length]
        omega
    | .obj [] => simp [jsize, jsizePairs, emit]
    | .obj ((k, v) :: t) =>
        have hn : 0 < n := by
          have := hv
          simp [jsize, jsizePairs] at this
          have := jsize_pos v
          omega
        have h1 : jsize v ≤ n - 1 := by
          simp [jsize, jsizePairs] at hv
          have := jsizePairs_pos t
          omega
        have h2 : jsizePairs t ≤ n - 1 := by
          simp [jsize, jsizePairs] at hv
          have := jsize_pos v
          omega
        have e1 := ((ih (n - 1) (by omega)).1) v (d + 2) h1
        have e2 := ((ih (n - 1) (by omega)).2.2) t (d + 2) h2
        rw [jsize, jsizePairs, emit]
        simp only [List.length_cons, List.length_append, spaces_length]
        omega
  · intro xs d hxs
    match xs with
    | [] => simp [jsizeList, emitItems]
    | x :: t =>
        have hn : 0 < n := by
          have := hxs
          simp [jsizeList] at this
          have := jsize_pos x
          omega
        have h1 : jsize x ≤ n - 1 := by
          simp [jsizeList] at hxs
          have := jsizeList_pos t
          omega
        have h2 : jsizeList t ≤ n - 1 := by
          simp [jsizeList] at hxs
          have := jsize_pos x
          omega
        have e1 := ((ih (n - 1) (by omega)).1) x d h1
        have e2 := ((ih (n - 1) (by omega)).2.1) t d h2
        rw [jsizeList, emitItems]
        simp only [List.length_cons, List.length_append, spaces_length]
        omega
  · intro ps d hps
    match ps with
    | [] => simp [jsizePairs, emitPairs]
    | (k, v) :: t =>
        have hn : 0 < n := by
          have := hps
          simp [jsizePairs] at this
          have := jsize_pos v
          omega
        have h1 : jsize v ≤ n - 1 := by
          simp [jsizePairs] at hps
          have := jsizePairs_pos t
          omega
        have h2 : jsizePairs t ≤ n - 1 := by
          simp [jsizePairs] at hps
          have := jsize_pos v
          omega
        have e1 := ((ih (n - 1) (by omega)).1) v d h1
        have e2 := ((ih (n - 1) (by omega)).2.2) t d h2
        rw [jsizePairs, emitPairs]
        simp only [List.length_cons, List.length_append, spaces_length]
        omega

theorem escapeChars_length_ge : ∀ s : List Char,
    s.length ≤ (escapeChars s).length := by
  intro s
  induction s with
  | nil => simp [escapeChars]
  | cons c s ih =>
      rw [escapeChars, List.length_cons, List.length_append]
      have h1 : 1 ≤ (escChar c).length := by
        rw [escChar]
        repeat' split
        all_goals simp
      omega

/-! ### The round trip: parsing an emission recovers the value -/

theorem parse_emit : ∀ fuel : Nat,
    (∀ v d rest, wfJ v = true → jsize v ≤ fuel → noDigitHead rest →
       parseValue fuel (emit d v ++ rest) = some (v, rest)) ∧
    (∀ xs d' d rest, wfL xs = true → jsizeList xs ≤ fuel →
       parseMore fuel (emitItems d' xs ++ '\n' :: (spaces d ++ ']' :: rest)) =
         some (xs, rest)) ∧
    (∀ ps d' d rest, wfP ps = true → jsizePairs ps ≤ fuel →
       parseMorePairs fuel
           (emitPairs d' ps ++ '\n' :: (spaces d ++ '}' :: rest)) =
         some (ps, rest)) := by
  intro fuel
  induction fuel using Nat.strong_induction_on with
  | _ fuel ih =>
  match fuel with
  | 0 =>
      refine ⟨?_, ?_, ?_⟩
      · intro v d rest _ hsz _
        have := jsize_pos v
        omega
      · intro xs d' d rest _ hsz
        have := jsizeList_pos xs
        omega
      · intro ps d' d rest _ hsz
        have := jsizePairs_pos ps
        omega
  | f + 1 =>
  have ihf := ih f (by omega)
  refine ⟨?_, ?_, ?_⟩
  · intro v d rest hwf hsz hnd
    cases v with
    | null =>
        rw [emit]
        simp only [List.cons_append, List.nil_append]
        rw [parseValue]
        rfl
    | bool b =>
        cases b with
        | true =>
            rw [emit]
            simp only [List.cons_append, List.nil_append]
            rw [parseValue]
            rfl
        | false =>
            rw [emit]
            simp only [List.cons_append, List.nil_append]
            rw [parseValue]
            rfl
    | int m =>
        rw [emit]
        obtain ⟨c0, t0, hct0, hc0⟩ := intChars_head m
        have n1 : ¬ c0 = 'n' := by intro h; rw [h] at hc0; revert hc0; decide
        have n2 : ¬ c0 = 't' := by intro h; rw [h] at hc0; revert hc0; decide
        have n3 : ¬ c0 = 'f' := by intro h; rw [h] at hc0; revert hc0; decide
        have n4 : ¬ c0 = '"' := by intro h; rw [h] at hc0; revert hc0; decide
        have n5 : ¬ c0 = '[' := by intro h; rw [h] at hc0; revert hc0; decide
        have n6 : ¬ c0 = '{' := by intro h; rw [h] at hc0; revert hc0; decide
        rw [hct0, List.cons_append, parseValue, if_neg n1, if_neg n2,
          if_neg n3, if_neg n4, if_neg n5, if_neg n6, ← List.cons_append,
          ← hct0, parseInt_intChars m rest hnd]
    | str s =>
        rw [emit]
        simp only [List.cons_append, List.nil_append, List.append_assoc]
        rw [parseValue]
        have hb : s.data.length <
            (escapeChars s.data ++ '"' :: rest).length + 1 := by
          rw [List.length_append]
          have := escapeChars_length_ge s.data
          omega
        rw [parse_escapeChars s.data _ rest hb]
        rfl
    | arr xs =>
        cases xs with
        | nil =>
            rw [emit]
            simp only [List.cons_append, List.nil_append]
            rw [parseValue]
            rfl
        | cons x t =>
            rw [wfJ, wfL, Bool.and_eq_true] at hwf
            obtain ⟨hwx, hwt⟩ := hwf
            have h1 : jsize x ≤ f := by
              rw [jsize, jsizeList] at hsz
              have := jsizeList_pos t
              omega
            have h2 : jsizeList t ≤ f := by
              rw [jsize, jsizeList] at hsz
              have := jsize_pos x
              omega
            have hndR : noDigitHead (emitItems (d + 2) t ++
                '\n' :: (spaces d ++ ']' :: rest)) := by
              cases t with
              | nil =>
                  rw [emitItems, List.nil_append]
                  exact Or.inl (by decide)
              | cons y t' =>
                  rw [emitItems, List.cons_append]
                  exact Or.inl (by decide)
            have e1 := ihf.1 x (d + 2)
              (emitItems (d + 2) t ++ '\n' :: (spaces d ++ ']' :: rest))
              hwx h1 hndR
            have e2 := ihf.2.1 t (d + 2) d rest hwt h2
            rw [emit]
            simp only [List.cons_append, List.nil_append, List.append_assoc]
            obtain ⟨c0, t0, hct0, hc0⟩ := emit_head x (d + 2)
            have hc0ne : ¬ c0 = ']' := by
              intro h; rw [h] at hc0; revert hc0; decide
            rw [hct0, List.cons_append] at e1
            rw [parseValue, if_neg (by decide), if_neg (by decide),
              if_neg (by decide), if_neg (by decide), if_pos rfl, skipWs_nl,
              skipWs_spaces, skipWs_emit x (d + 2) _, hct0, List.cons_append]
            simp only [if_neg hc0ne, e1, e2]
    | obj ps =>
        cases ps with
        | nil =>
            rw [emit]
            simp only [List.cons_append, List.nil_append]
            rw [parseValue]
            rfl
        | cons p t =>
            obtain ⟨k, v⟩ := p
            rw [wfJ, Bool.and_eq_true] at hwf
            obtain ⟨hnkeys, hwp⟩ := hwf
            have hnd' : (((k, v) :: t).map Prod.fst).Nodup :=
              nodupKeys_nodup _ hnkeys
            rw [wfP, Bool.and_eq_true] at hwp
            obtain ⟨hwv, hwt⟩ := hwp
            have h1 : jsize v ≤ f := by
              rw [jsize, jsizePairs] at hsz
              have := jsizePairs_pos t
              omega
            have h2 : jsizePairs t ≤ f := by
              rw [jsize, jsizePairs] at hsz
              have := jsize_pos v
              omega
            have hndZ : noDigitHead (emitPairs (d + 2) t ++
                '\n' :: (spaces d ++ '}' :: rest)) := by
              cases t with
              | nil =>
                  rw [emitPairs, List.nil_append]
                  exact Or.inl (by decide)
              | cons q t' =>
                  obtain ⟨k2, v2⟩ := q
                  rw [emitPairs, List.cons_append]
                  exact Or.inl (by decide)
            have e1 := ihf.1 v (d + 2)
              (emitPairs (d + 2) t ++ '\n' :: (spaces d ++ '}' :: rest))
              hwv h1 hndZ
            have e2 := ihf.2.2 t (d + 2) d rest hwt h2
            rw [emit]
            simp only [List.cons_append, List.nil_append, List.append_assoc]
            rw [parseValue, if_neg (by decide), if_neg (by decide),
              if_neg (by decide), if_neg (by decide), if_neg (by decide),
              if_pos rfl, skipWs_nl, skipWs_spaces,
              skipWs_notWs '"' _ (by decide)]
            have hb : k.data.length <
                (escapeChars k.data ++ '"' :: ':' :: ' ' ::
                  (emit (d + 2) v ++ (emitPairs (d + 2) t ++
                    '\n' :: (spaces d ++ '}' :: rest)))).length + 1 := by
              rw [List.length_append]
              have := escapeChars_length_ge k.data
              omega
            simp only []
            rw [if_true, parse_escapeChars k.data _ _ hb]
            simp only []
            rw [skipWs_notWs ':' _ (by decide)]
            simp only []
            rw [if_true, skipWs_space, skipWs_emit v (d + 2) _, e1]
            simp only [e2]
            rw [if_neg (by decide)]
            show some (JValue.obj (dictOf ((k, v) :: t)), rest) =
              some (JValue.obj ((k, v) :: t), rest)
            rw [dictOf_nodup _ hnd']
  · intro xs d' d rest hwl hsz
    cases xs with
    | nil =>
        rw [emitItems, List.nil_append, parseMore, skipWs_nl, skipWs_spaces,
          skipWs_notWs ']' _ (by decide)]
        rfl
    | cons y t =>
        rw [wfL, Bool.and_eq_true] at hwl
        obtain ⟨hwy, hwt⟩ := hwl
        have h1 : jsize y ≤ f := by
          rw [jsizeList] at hsz
          have := jsizeList_pos t
          omega
        have h2 : jsizeList t ≤ f := by
          rw [jsizeList] at hsz
          have := jsize_pos y
          omega
        have hndR : noDigitHead (emitItems d' t ++
            '\n' :: (spaces d ++ ']' :: rest)) := by
          cases t with
          | nil =>
              rw [emitItems, List.nil_append]
              exact Or.inl (by decide)
          | cons z t' =>
              rw [emitItems, List.cons_append]
              exact Or.inl (by decide)
        have e1 := ihf.1 y d'
          (emitItems d' t ++ '\n' :: (spaces d ++ ']' :: rest)) hwy h1 hndR
        have e2 := ihf.2.1 t d' d rest hwt h2
        rw [emitItems]
        simp only [List.cons_append, List.nil_append, List.append_assoc]
        rw [parseMore, skipWs_notWs ',' _ (by decide)]
        show (if (',' : Char) = ']' then _ else _) = _
        rw [if_neg (by decide), if_pos rfl, skipWs_nl, skipWs_spaces,
          skipWs_emit y d' _, e1]
        show (match parseMore f
            (emitItems d' t ++ '\n' :: (spaces d ++ ']' :: rest)) with
          | none => none
          | some (vs, r2) => some (y :: vs, r2)) = _
        rw [e2]
  · intro ps d' d rest hwp hsz
    cases ps with
    | nil =>
        rw [emitPairs, List.nil_append, parseMorePairs, skipWs_nl,
          skipWs_spaces, skipWs_notWs '}' _ (by decide)]
        rfl
    | cons p t =>
        obtain ⟨k, v⟩ := p
        rw [wfP, Bool.and_eq_true] at hwp
        obtain ⟨hwv, hwt⟩ := hwp
        have h1 : jsize v ≤ f := by
          rw [jsizePairs] at hsz
          have := jsizePairs_pos t
          omega
        have h2 : jsizePairs t ≤ f := by
          rw [jsizePairs] at hsz
          have := jsize_pos v
          omega
        have hndZ : noDigitHead (emitPairs d' t ++
            '\n' :: (spaces d ++ '}' :: rest)) := by
          cases t with
          | nil =>
              rw [emitPairs, List.nil_append]
              exact Or.inl (by decide)
          | cons q t' =>
              obtain ⟨k2, v2⟩ := q
              rw [emitPairs, List.cons_append]
              exact Or.inl (by decide)
        have e1 := ihf.1 v d'
          (emitPairs d' t ++ '\n' :: (spaces d ++ '}' :: rest)) hwv h1 hndZ
        have e2 := ihf.2.2 t d' d rest hwt h2
        rw [emitPairs]
        simp only [List.cons_append, List.nil_append, List.append_assoc]
        rw [parseMorePairs, skipWs_notWs ',' _ (by decide)]
        show (if (',' : Char) = '}' then _ else _) = _
        rw [if_neg (by decide), if_pos rfl, skipWs_nl, skipWs_spaces,
          skipWs_notWs '"' _ (by decide)]
        have hb : k.data.length <
            (escapeChars k.data ++ '"' :: ':' :: ' ' ::
              (emit d' v ++ (emitPairs d' t ++
                '\n' :: (spaces d ++ '}' :: rest)))).length + 1 := by
          rw [List.length_append]
          have := escapeChars_length_ge k.data
          omega
        simp only []
        rw [if_true, parse_escapeChars k.data _ _ hb]
        simp only []
        rw [skipWs_notWs ':' _ (by decide)]
        simp only []
        rw [if_true, skipWs_space, skipWs_emit v d' _, e1]
        simp only [e2]

/-- Parsing the two-space-indented serialization of any value in the image
of json.load yields that value back. -/
theorem loads_dumps (v : JValue) (h : wfJ v = true) :
    loads (dumps v) = some v := by
  have hskip : skipWs (emit 0 v) = emit 0 v := by
    simpa using skipWs_emit v 0 []
  have hsz : jsize v ≤ (emit 0 v).length :=
    (emit_size_le (jsize v)).1 v 0 (le_refl _)
  have hp : parseValue ((emit 0 v).length + 1) (emit 0 v) = some (v, []) := by
    have := (parse_emit ((emit 0 v).length + 1)).1 v 0 [] h (by omega) trivial
    rwa [List.append_nil] at this
  show loads (String.mk (emit 0 v)) = some v
  rw [loads]
  show (match parseValue ((emit 0 v).length + 1) (skipWs (emit 0 v)) with
    | some (v, rest) => if skipWs rest = [] then some v else none
    | none => none) = some v
  rw [hskip, hp]
  rfl

/-! ### Claim C10 (confirmed) -/

/-- Claim C10: the text inserted into the editor for an artifact is the
two-space-indented serialization of its parsed content, and parsing that
text yields exactly the value read from the file; the same holds for the
merged registry text written during reconciliation.  Values are quantified
over the image of json.load (objects with pairwise-distinct keys,
recursively; integer numbers). -/
theorem c10_round_trip :
    (∀ (f : FileSpec) (fields : List (String × JValue))
       (u : String), f.onDisk = true → f.parsed = some (.obj fields) →
       f.uiUrl = some u →
       Effect.insertText (dumps (.obj fields)) ∈ publishTrace f (.obj fields) ∧
       (wfJ (.obj fields) = true →
         loads (dumps (.obj fields)) = some (.obj fields))) ∧
    (∀ (regId : String) (fetch : Option JValue) (recs : List PublishedRecord)
       (m : List JValue) (effs : List Effect),
       registryPhase regId fetch recs = (.written m, effs) →
       Effect.insertText (dumps (.arr m)) ∈ effs ∧
       (wfJ (.arr m) = true → loads (dumps (.arr m)) = some (.arr m))) := by
  constructor
  · intro f fields u _ _ _
    constructor
    · by_cases hb : f.newBtnInstant <;> simp [publishTrace, navTrace, hb]
    · exact loads_dumps (.obj fields)
  · intro regId fetch recs m effs h
    rw [registryPhase] at h
    by_cases hemp : recs.isEmpty
    · rw [if_pos hemp] at h
      cases h
    · rw [if_neg hemp] at h
      match hm : mergeRegistry (fetchedRegistry fetch) recs with
      | none => rw [hm] at h; cases h
      | some updated =>
          rw [hm] at h
          have hmm : m = updated := by
            have := congrArg Prod.fst h
            simp only at this
            cases this
            rfl
          have heff := congrArg Prod.snd h
          simp only at heff
          subst hmm
          constructor
          · rw [← heff]; simp
          · exact loads_dumps (.arr m)

/-- Witness for C10 at the sample artifact and a one-record registry. -/
theorem c10_witness :
    Effect.insertText (dumps (.obj [("id", .str "g"), ("title", .str "T")])) ∈
      publishTrace sampleFile (.obj [("id", .str "g"), ("title", .str "T")]) ∧
    loads (dumps (.obj [("id", .str "g"), ("title", .str "T")])) =
      some (.obj [("id", .str "g"), ("title", .str "T")]) :=
  ⟨(c10_round_trip.1 sampleFile [("id", .str "g"), ("title", .str "T")]
      "https://www.npoint.io/docs/xyz" (by decide) (by decide) (by decide)).1,
   (c10_round_trip.1 sampleFile [("id", .str "g"), ("title", .str "T")]
      "https://www.npoint.io/docs/xyz" (by decide) (by decide)
      (by decide)).2 (by decide)⟩

end NPoint
